import Mathlib

/-!
GstMatcher (backends/apt/gst-matcher.cpp).

A shallow embedding of the GStreamer capability-query matcher of the apt
backend: the constructor `GstMatcher::GstMatcher`, which turns raw query
strings into `Match` descriptors, and `GstMatcher::matches`, which tests a
package record against the stored descriptors.

Strings (`std::string`, `gchar *`) are lists of characters, one character per
byte.  The GStreamer capability engine is a parameter (`CapabilityAlgebra`).
-/

/-- A byte string: `std::string` or a NUL-terminated `gchar *`. -/
abbrev Str := List Char

set_option linter.dupNamespace false

namespace StdString

/-- The call `s.substr(pos, n)`, also `string(s, pos, n)`: at most `n` characters
from index `pos` on. -/
def substr (s : Str) (pos n : Nat) : Str := (s.drop pos).take n

/-- The call `s.erase(pos, n)`. -/
def erase (s : Str) (pos n : Nat) : Str := s.take pos ++ s.drop (pos + n)

/-- The call `s.replace(pos, n, t)`. -/
def replace (s : Str) (pos n : Nat) (t : Str) : Str := s.take pos ++ t ++ s.drop (pos + n)

/-- Scan of `find`: `s` is the text from index `i` on. -/
def findAux (pat : Str) : Str → Nat → Option Nat
  | [], i => if pat.isPrefixOf [] then some i else none
  | c :: cs, i => if pat.isPrefixOf (c :: cs) then some i else findAux pat cs (i + 1)

/-- The call `s.find(pat, pos)`: the first index `i ≥ pos` at which `pat` occurs
in `s`; `none` stands for `string::npos`. -/
def find (s pat : Str) (pos : Nat) : Option Nat :=
  if pos ≤ s.length then findAux pat (s.drop pos) pos else none

/-- The call `s.find(c, pos)` for a single character. -/
def findChar (s : Str) (c : Char) (pos : Nat) : Option Nat := find s [c] pos

/-- The call `s.c_str()` read as a C string: the text before the first NUL. -/
def c_str (s : Str) : Str := s.takeWhile (fun c => c != Char.ofNat 0)

end StdString

open StdString

/-- The external capability engine: `gst_caps_from_string` (`none` is the `NULL`
result) and `gst_caps_can_intersect`. -/
structure CapabilityAlgebra (Caps : Type) where
  gst_caps_from_string : Str → Option Caps
  gst_caps_can_intersect : Caps → Caps → Bool

/-- Modelled from the spec: the `Match` record of gst-matcher.h (ParsedQuery:
version_tag, kind, media_descriptor, constraints, expression, arch_hint), with
the field names the constructor assigns. -/
structure Match (Caps : Type) where
  version : Str
  type : Str
  data : Str
  opt : Str
  caps : Caps
  arch : Str
deriving DecidableEq

/-- The matcher object: the vector `m_matches`. -/
structure GstMatcher (Caps : Type) where
  m_matches : List (Match Caps)
deriving DecidableEq

/-- The text `record.substr(found, endOfLine - found)`; with `endOfLine = npos`
the count `npos - found` exceeds what is left of the record. -/
def recordValue (record : Str) (found : Nat) (endOfLine : Option Nat) : Str :=
  match endOfLine with
  | some e => substr record found (e - found)
  | none => record.drop found

/-- One iteration of the loop of `GstMatcher::matches`: `true` is `return true`,
`false` is falling through (or `continue`) to the next descriptor. -/
def matchesBody {Caps : Type} (alg : CapabilityAlgebra Caps) (record arch : Str)
    (m : Match Caps) : Bool :=
  match find record m.version 0 with
  | none => false
  | some _ =>
    if m.arch ≠ [] ∧ arch ≠ m.arch then false
    else
      match find record m.type 0 with
      | none => false
      | some found0 =>
        let found := found0 + m.type.length
        let endOfLine := findChar record '\n' found
        match alg.gst_caps_from_string (c_str (recordValue record found endOfLine)) with
        | none => false
        | some caps => alg.gst_caps_can_intersect m.caps caps

/-- The loop of `GstMatcher::matches` over the stored descriptors. -/
def matchesLoop {Caps : Type} (alg : CapabilityAlgebra Caps) (record arch : Str) :
    List (Match Caps) → Bool
  | [] => false
  | m :: rest => if matchesBody alg record arch m then true else matchesLoop alg record arch rest

/-- `GstMatcher::matches(record, arch)`. -/
def GstMatcher.matches {Caps : Type} (alg : CapabilityAlgebra Caps) (self : GstMatcher Caps)
    (record arch : Str) : Bool :=
  matchesLoop alg record arch self.m_matches

/-- `GstMatcher::hasMatches()`. -/
def GstMatcher.hasMatches {Caps : Type} (self : GstMatcher Caps) : Bool :=
  !self.m_matches.isEmpty

/-! ## The calls `matches` makes to the engine -/

/-- A call into the capability engine, made while the descriptor at index
`position` of `m_matches` is examined: `gst_caps_from_string(text)` or
`gst_caps_can_intersect`. -/
inductive EngineCall where
  | parse (position : Nat) (text : Str)
  | intersect (position : Nat)
deriving DecidableEq

/-- The index of the descriptor a call was made for. -/
def EngineCall.position : EngineCall → Nat
  | .parse position _ => position
  | .intersect position => position

/-- Whether the call is a call of the overlap predicate. -/
def EngineCall.isIntersect : EngineCall → Bool
  | .parse _ _ => false
  | .intersect _ => true

/-- `matchesBody` for the descriptor at index `position`, together with the
engine calls the iteration makes, in order. -/
def matchesBodyCalls {Caps : Type} (alg : CapabilityAlgebra Caps) (record arch : Str)
    (position : Nat) (m : Match Caps) : Bool × List EngineCall :=
  match find record m.version 0 with
  | none => (false, [])
  | some _ =>
    if m.arch ≠ [] ∧ arch ≠ m.arch then (false, [])
    else
      match find record m.type 0 with
      | none => (false, [])
      | some found0 =>
        let found := found0 + m.type.length
        let endOfLine := findChar record '\n' found
        let text := c_str (recordValue record found endOfLine)
        match alg.gst_caps_from_string text with
        | none => (false, [EngineCall.parse position text])
        | some caps =>
          (alg.gst_caps_can_intersect m.caps caps,
            [EngineCall.parse position text, EngineCall.intersect position])

/-- `matchesLoop` from index `position` on, together with the engine calls made. -/
def matchesLoopCalls {Caps : Type} (alg : CapabilityAlgebra Caps) (record arch : Str) :
    Nat → List (Match Caps) → Bool × List EngineCall
  | _, [] => (false, [])
  | position, m :: rest =>
    if (matchesBodyCalls alg record arch position m).1 then
      (true, (matchesBodyCalls alg record arch position m).2)
    else
      ((matchesLoopCalls alg record arch (position + 1) rest).1,
        (matchesBodyCalls alg record arch position m).2 ++
          (matchesLoopCalls alg record arch (position + 1) rest).2)

/-- `GstMatcher::matches(record, arch)` together with the engine calls it makes. -/
def GstMatcher.matchesCalls {Caps : Type} (alg : CapabilityAlgebra Caps) (self : GstMatcher Caps)
    (record arch : Str) : Bool × List EngineCall :=
  matchesLoopCalls alg record arch 0 self.m_matches

/-- The text `matches` hands to `gst_caps_from_string` for a descriptor that
passes the version, architecture and kind gates; `none` when a gate stops it. -/
def extractedText {Caps : Type} (record arch : Str) (m : Match Caps) : Option Str :=
  match find record m.version 0 with
  | none => none
  | some _ =>
    if m.arch ≠ [] ∧ arch ≠ m.arch then none
    else
      match find record m.type 0 with
      | none => none
      | some found0 =>
        some (c_str (recordValue record (found0 + m.type.length)
          (findChar record '\n' (found0 + m.type.length))))

/-! ## The query pattern `pkreg` -/

/-- One `regmatch_t`: the byte offsets of a matched group. -/
structure regmatch_t where
  rm_so : Nat
  rm_eo : Nat
deriving DecidableEq

/-- The entries of `matches[]` the constructor reads: 1 (version), 3 (type),
4 (data) and 5 (the options group, parentheses included); `none` for entry 5 is
`rm_so = -1`, the group did not take part in the match. -/
structure RegMatches where
  m1 : regmatch_t
  m3 : regmatch_t
  m4 : regmatch_t
  m5 : Option regmatch_t
deriving DecidableEq

/-- Literal text of the pattern: `some rest` when `s` starts with `p`. -/
def dropPrefix? (p s : Str) : Option Str :=
  if p.isPrefixOf s then some (s.drop p.length) else none

/-- Group 1, `0.10` or `1` (the dot is the any-character dot): its length and
the text after it. -/
def reVersion : Str → Option (Nat × Str)
  | '0' :: _ :: '1' :: '0' :: r => some (4, r)
  | '1' :: r => some (1, r)
  | _ => none

/-- Group 2, the optional `.0`: its length and the text after it.  The pattern
goes on with `(`, so the group is taken exactly when the text starts with `.0`. -/
def reDotZero (s : Str) : Nat × Str :=
  match dropPrefix? ".0".toList s with
  | some r => (2, r)
  | none => (0, s)

/-- The alternatives of group 3. -/
def kindTokens : List Str :=
  ["encoder".toList, "decoder".toList, "urisource".toList, "urisink".toList, "element".toList]

/-- Group 3: one of the five tokens (none is a prefix of another). -/
def reKind (s : Str) : Option (Nat × Str) :=
  kindTokens.findSome? (fun k => (dropPrefix? k s).map (fun r => (k.length, r)))

/-- Group 4 and the `)` that closes it: one or more characters other than `)`. -/
def reData (s : Str) : Option (Nat × Str) :=
  match s.dropWhile (fun c => c != ')') with
  | _ :: r => if s.takeWhile (fun c => c != ')') = [] then none
              else some ((s.takeWhile (fun c => c != ')')).length, r)
  | [] => none

/-- The text before the last occurrence of `c`. -/
def beforeLast (c : Char) : Str → Option Str
  | [] => none
  | x :: xs =>
    match beforeLast c xs with
    | some ys => some (x :: ys)
    | none => if x = c then some [] else none

/-- Group 5, the optional `(.*)`: its length.  The longest match runs to the last
`)` of the string; without a `(` here or a `)` later the group is left out. -/
def reOptions : Str → Option Nat
  | '(' :: r => (beforeLast ')' r).map (fun inner => inner.length + 2)
  | _ => none

/-- The call `regexec(&pkre, value, 6, matches, 0)` for the pattern `pkreg`,
a POSIX basic expression anchored at the start and not at the end:
`^gstreamer\(0.10\|1\)\(\.0\)\?`
`(\(encoder\|decoder\|urisource\|urisink\|element\)-\([^)]\+\))\((.*)\)\?`.
Up to the `)` that closes group 4 the text decides every choice; after it the
longest match takes the options group whenever it can.  `none` is `REG_NOMATCH`. -/
def regexec (value : Str) : Option RegMatches := do
  let r0 ← dropPrefix? "gstreamer".toList value
  let (n1, r1) ← reVersion r0
  let (n2, r2) := reDotZero r1
  let r3 ← dropPrefix? "(".toList r2
  let (n3, r4) ← reKind r3
  let r5 ← dropPrefix? "-".toList r4
  let (n4, r6) ← reData r5
  let so1 := 9
  let so3 := so1 + n1 + n2 + 1
  let so4 := so3 + n3 + 1
  let so5 := so4 + n4 + 1
  pure { m1 := ⟨so1, so1 + n1⟩, m3 := ⟨so3, so3 + n3⟩, m4 := ⟨so4, so4 + n4⟩,
         m5 := (reOptions r6).map (fun n5 => ⟨so5, so5 + n5⟩) }

/-! ## The constructor -/

/-- Modelled from the spec: `ends_with` of apt-utils.h, which is not part of
gst-matcher.cpp: whether the string ends with the literal suffix. -/
def ends_with (str ending : Str) : Bool := ending.isSuffixOf str

/-- The `while` loop of lines 83-91 on `(opt, start_pos)`, at most `fuel`
evaluations of its condition; `none` when the fuel runs out before the loop ends. -/
def replaceLoop : Nat → Str → Nat → Option Str
  | 0, _, _ => none
  | fuel + 1, opt, start_pos =>
    match find opt ")(".toList start_pos with
    | none => some opt
    | some p =>
      if p = opt.length - 2 then some (erase opt p 2)
      else replaceLoop fuel (replace opt p 2 ",".toList) (p + 1)

/-- The loop run with fuel `opt.length + 1`, which is always enough
(`replaceLoop_length_succ`). -/
def replaceSeparators (opt : Str) : Str :=
  (replaceLoop (opt.length + 1) opt 0).getD opt

/-- Lines 71-92: the pair `(opt, arch)` the constructor computes from the text
between the outer parentheses of the options group. -/
def normalizeOpt (opt : Str) : Str × Str :=
  if opt ≠ [] then
    let x86_64 := ")(64bit".toList
    if ends_with opt x86_64 then
      (replaceSeparators (opt.take (opt.length - x86_64.length)), "amd64".toList)
    else
      (replaceSeparators opt, [])
  else
    (opt, [])

/-- Lines 95-105: the record marker of a kind token. -/
def typeMarker (type : Str) : Str :=
  if type = "encoder".toList then "Gstreamer-Encoders: ".toList
  else if type = "decoder".toList then "Gstreamer-Decoders: ".toList
  else if type = "urisource".toList then "Gstreamer-Uri-Sources: ".toList
  else if type = "urisink".toList then "Gstreamer-Uri-Sinks: ".toList
  else if type = "element".toList then "Gstreamer-Elements: ".toList
  else type

/-- Lines 107-112: the text handed to `gst_caps_from_string`. -/
def capsString (data opt : Str) : Str :=
  if opt = [] then data else data ++ ", ".toList ++ opt

/-- The strings the constructor has computed for one raw query when it reaches
line 113: `version`, `type` (already the marker), `data`, `opt` and `arch`. -/
structure QueryFields where
  version : Str
  type : Str
  data : Str
  opt : Str
  arch : Str
deriving DecidableEq

/-- Lines 53-105 for one raw query: `none` when `regexec` reports no match. -/
def queryFields (value : Str) : Option QueryFields :=
  match regexec value with
  | none => none
  | some ms =>
    let version := "\nGstreamer-Version: ".toList ++ substr value ms.m1.rm_so (ms.m1.rm_eo - ms.m1.rm_so)
    let type := substr value ms.m3.rm_so (ms.m3.rm_eo - ms.m3.rm_so)
    let data := substr value ms.m4.rm_so (ms.m4.rm_eo - ms.m4.rm_so)
    let optArch : Str × Str :=
      match ms.m5 with
      | some g => normalizeOpt (substr value (g.rm_so + 1) (g.rm_eo - g.rm_so - 2))
      | none => ([], [])
    some { version := version, type := typeMarker type, data := data, opt := optArch.1,
           arch := optArch.2 }

/-- The body of the constructor loop for one raw query: `some` is the descriptor
pushed onto `m_matches`, `none` a query that is skipped (no match of the
pattern, or `gst_caps_from_string` returned `NULL`).  A raw query is a C string
and holds no NUL, so `c_str()` of its pieces is the pieces themselves. -/
def parseValue {Caps : Type} (alg : CapabilityAlgebra Caps) (value : Str) : Option (Match Caps) :=
  match queryFields value with
  | none => none
  | some f =>
    match alg.gst_caps_from_string (capsString f.data f.opt) with
    | none => none
    | some caps =>
      some { version := f.version, type := f.type, data := f.data, opt := f.opt,
             caps := caps, arch := f.arch }

/-- One iteration of the constructor loop on the vector built so far:
`push_back` of the descriptor, or nothing for a query that is skipped. -/
def constructorStep {Caps : Type} (alg : CapabilityAlgebra Caps) (acc : List (Match Caps))
    (value : Str) : List (Match Caps) :=
  match parseValue alg value with
  | some m => acc ++ [m]
  | none => acc

/-- `GstMatcher::GstMatcher(values)`: the loop over the raw queries.  (`regcomp`
accepts `pkreg`.) -/
def GstMatcher.GstMatcher {Caps : Type} (alg : CapabilityAlgebra Caps) (values : List Str) :
    GstMatcher Caps :=
  ⟨values.foldl (constructorStep alg) []⟩

/-! ## The grammar of the pattern, stated on its own -/

/-- The conditions of the search-term grammar on the pieces of a raw query: the
version is `1` or `0.10` (any character for the dot), the optional piece after
it is `.0`, the kind is one of the five tokens, and the data is non-empty and
free of `)`. -/
def GrammarPieces (ver dot kind data : Str) : Prop :=
  (ver = ['1'] ∨ ∃ c, ver = ['0', c, '1', '0']) ∧ (dot = [] ∨ dot = ".0".toList) ∧
    kind ∈ kindTokens ∧ data ≠ [] ∧ ')' ∉ data

/-- The required part of a raw query: `gstreamer`, the version, the optional
`.0`, then `(kind-data)`.  Whatever follows is not constrained. -/
def MatchesGrammar (value : Str) : Prop :=
  ∃ ver dot kind data rest : Str,
    value = "gstreamer".toList ++ ver ++ dot ++ '(' :: kind ++ '-' :: data ++ ')' :: rest ∧
    GrammarPieces ver dot kind data

/-! ## The pattern and the separator loop, restated for the proofs -/

/-- The offsets `regexec` reports for a query with the given pieces. -/
def groupsOf (ver dot kind data rest : Str) : RegMatches :=
  let so3 := 9 + ver.length + dot.length + 1
  let so4 := so3 + kind.length + 1
  let so5 := so4 + data.length + 1
  { m1 := ⟨9, 9 + ver.length⟩, m3 := ⟨so3, so3 + kind.length⟩, m4 := ⟨so4, so4 + data.length⟩,
    m5 := (reOptions rest).map (fun n5 => ⟨so5, so5 + n5⟩) }

/-- The text between the outer parentheses of the options group, when the pattern
takes the group: the text after the `(` and before the last `)`. -/
def optionsText : Str → Option Str
  | '(' :: r => beforeLast ')' r
  | _ => none

/-- The pair `(opt, arch)` of a query whose text after the required part is `rest`. -/
def optArchOf (rest : Str) : Str × Str :=
  match optionsText rest with
  | some inner => normalizeOpt inner
  | none => ([], [])

/-- The loop of lines 83-91 as one pass over the text: each `)(` becomes `,`,
except a `)(` that ends the text, which is deleted. -/
def replaceRef : Str → Str
  | [] => []
  | [c] => [c]
  | c :: d :: rest =>
    if c = ')' ∧ d = '(' then (if rest = [] then [] else ',' :: replaceRef rest)
    else c :: replaceRef (d :: rest)

/-- The replacement in the words of the specification: every occurrence of `)(`,
taken left to right without overlap, becomes a single `,`. -/
def replaceAllRef : Str → Str
  | [] => []
  | [c] => [c]
  | c :: d :: rest =>
    if c = ')' ∧ d = '(' then ',' :: replaceAllRef rest
    else c :: replaceAllRef (d :: rest)

/-! ## Sample engine, queries and records -/

/-- A stand-in engine for concrete evaluations: every text parses to itself and
two values overlap when they are equal. -/
def textAlgebra : CapabilityAlgebra Str where
  gst_caps_from_string := fun s => some s
  gst_caps_can_intersect := fun a b => a == b

/-- The descriptor stored for `gstreamer1.0(decoder-audio/x-wma)` by the stand-in
engine. -/
def wmaDecoder : Match Str :=
  { version := "\nGstreamer-Version: 1".toList, type := "Gstreamer-Decoders: ".toList,
    data := "audio/x-wma".toList, opt := [], caps := "audio/x-wma".toList, arch := [] }

/-- A record whose decoder line comes before its version line. -/
def kindFirstRecord : Str :=
  "Package: x\nGstreamer-Decoders: audio/x-wma\nGstreamer-Version: 1.0\n".toList

/-- A record with a version line and no decoder line. -/
def noDecoderRecord : Str :=
  "Package: x\nGstreamer-Version: 1.0\nGstreamer-Encoders: audio/x-wma\n".toList

/-- The descriptor stored for `gstreamer1.0(decoder-audio/x-wma)()(64bit)` by the
stand-in engine. -/
def wmaDecoder64 : Match Str :=
  { version := "\nGstreamer-Version: 1".toList, type := "Gstreamer-Decoders: ".toList,
    data := "audio/x-wma".toList, opt := [], caps := "audio/x-wma".toList,
    arch := "amd64".toList }

/-- A well-formed record that provides the decoder. -/
def wmaRecord : Str :=
  "Package: x\nGstreamer-Version: 1.0\nGstreamer-Decoders: audio/x-wma\n".toList

/-- A query whose required group is left open: the `)` after the data is missing. -/
def openGroupQuery : Str := "gstreamer1.0(decoder-audio/x-wma".toList

/-- The query of the round-trip scenario. -/
def wmaQuery : Str := "gstreamer1.0(decoder-audio/x-wma)(wmaversion=3)".toList

/-- The text the record provides for the decoder in the round-trip scenario,
which is also the expression text of `wmaQuery`. -/
def wmaCapsText : Str := "audio/x-wma, wmaversion=3".toList

/-- The descriptor the constructor stores for `wmaQuery` when the engine parses
its expression text to `caps`. -/
def wmaMatch {Caps : Type} (caps : Caps) : Match Caps :=
  { version := "\nGstreamer-Version: 1".toList, type := "Gstreamer-Decoders: ".toList,
    data := "audio/x-wma".toList, opt := "wmaversion=3".toList, caps := caps, arch := [] }

/-- A record with the two lines of the scenario, and before them a line that
also carries the decoder marker. -/
def twoDecoderLinesRecord : Str :=
  ("Package: x\nGstreamer-Decoders: video/x-h264\nGstreamer-Version: 1.0\n" ++
    "Gstreamer-Decoders: audio/x-wma, wmaversion=3\n").toList

/-- A record of the round-trip scenario, with other fields around the two lines. -/
def roundTripRecord : Str :=
  ("Package: x\nGstreamer-Version: 1.0\nGstreamer-Elements: foo\n" ++
    "Gstreamer-Decoders: audio/x-wma, wmaversion=3\nSize: 1\n").toList

/-- A record whose decoder value holds a NUL byte between `a` and `b`. -/
def nulRecord : Str :=
  "\nGstreamer-Version: 1\nGstreamer-Decoders: ".toList ++
    'a' :: Char.ofNat 0 :: "b\nSize: 1\n".toList

/-- The descriptor of `gstreamer1.0(encoder-audio/x-wma)` for the stand-in engine. -/
def wmaEncoder : Match Str :=
  { version := "\nGstreamer-Version: 1".toList, type := "Gstreamer-Encoders: ".toList,
    data := "audio/x-wma".toList, opt := [], caps := "audio/x-wma".toList, arch := [] }

/-- An engine that parses no text but `audio/x-wma`. -/
def wmaOnlyAlgebra : CapabilityAlgebra Str where
  gst_caps_from_string := fun s => if s = "audio/x-wma".toList then some s else none
  gst_caps_can_intersect := fun a b => a == b

/-- A record whose encoder value the engine `wmaOnlyAlgebra` rejects and whose
decoder value it accepts. -/
def badEncoderRecord : Str :=
  "Package: x\nGstreamer-Version: 1.0\nGstreamer-Encoders: ???\nGstreamer-Decoders: audio/x-wma\n".toList

/-- The raw query `gstreamer1.0(K-M)(O)`. -/
def plainQuery (K M O : Str) : Str :=
  "gstreamer1.0(".toList ++ K ++ '-' :: M ++ ")(".toList ++ O ++ [')']

/-- The raw query `gstreamer1.0(K-M)(O)(64bit)`. -/
def markedQuery (K M O : Str) : Str :=
  "gstreamer1.0(".toList ++ K ++ '-' :: M ++ ")(".toList ++ O ++ ")(64bit)".toList

/-- A record that provides the decoder `x` with the constraint `a`. -/
def decoderXRecord : Str := "Package: x\nGstreamer-Version: 1.0\nGstreamer-Decoders: x, a\n".toList

/-! ## Strings -/

theorem dropPrefix?_eq_some (p s r : Str) : dropPrefix? p s = some r ↔ s = p ++ r := by
  unfold dropPrefix?
  split
  · rename_i h
    rw [ List.isPrefixOf_iff_prefix] at h
    obtain ⟨t, rfl⟩ := h
    simp
  · rename_i h
    rw [ List.isPrefixOf_iff_prefix] at h
    constructor
    · intro h0; cases h0
    · rintro rfl
      exact absurd ⟨r, rfl⟩ h

theorem dropPrefix?_append (p r : Str) : dropPrefix? p (p ++ r) = some r :=
  (dropPrefix?_eq_some p (p ++ r) r).2 rfl

theorem substr_append_mid (a b c : Str) (n m : Nat) (hn : n = a.length) (hm : m = b.length) :
    substr (a ++ (b ++ c)) n m = b := by
  subst hn hm
  simp [substr]

theorem substr_of_eq (s a b c : Str) (n m : Nat) (hs : s = a ++ (b ++ c)) (hn : n = a.length)
    (hm : m = b.length) : substr s n m = b := by
  subst hs
  exact substr_append_mid a b c n m hn hm

theorem reVersion_eq_some (s r : Str) (n : Nat) :
    reVersion s = some (n, r) ↔
      (s = '1' :: r ∧ n = 1) ∨ (∃ c, s = '0' :: c :: '1' :: '0' :: r ∧ n = 4) := by
  unfold reVersion
  split
  · simp
    constructor
    · rintro ⟨rfl, rfl⟩; exact ⟨rfl, rfl⟩
    · rintro ⟨rfl, rfl⟩; exact ⟨rfl, rfl⟩
  · simp
    constructor
    · rintro ⟨rfl, rfl⟩; exact ⟨rfl, rfl⟩
    · rintro ⟨rfl, rfl⟩; exact ⟨rfl, rfl⟩
  · rename_i h1 h2
    constructor
    · intro h0; cases h0
    · rintro (⟨rfl, -⟩ | ⟨c, rfl, -⟩)
      · exact absurd rfl (h2 r)
      · exact absurd rfl (h1 c r)

theorem reDotZero_spec (s : Str) :
    (∃ r, s = '.' :: '0' :: r ∧ reDotZero s = (2, r)) ∨
      (¬ ".0".toList <+: s ∧ reDotZero s = (0, s)) := by
  unfold reDotZero
  cases h : dropPrefix? ".0".toList s with
  | some r =>
    left
    rw [dropPrefix?_eq_some] at h
    exact ⟨r, by simpa using h, rfl⟩
  | none =>
    right
    refine ⟨?_, rfl⟩
    rintro ⟨t, rfl⟩
    rw [dropPrefix?_append] at h
    cases h

theorem reKind_eq_some (s r : Str) (n : Nat) :
    reKind s = some (n, r) ↔ ∃ k ∈ kindTokens, s = k ++ r ∧ n = k.length := by
  constructor
  · intro h
    obtain ⟨k, hk, hf⟩ := List.exists_of_findSome?_eq_some h
    refine ⟨k, hk, ?_⟩
    cases hd : dropPrefix? k s with
    | none => simp [hd] at hf
    | some r1 =>
      simp [hd] at hf
      rw [dropPrefix?_eq_some] at hd
      obtain ⟨rfl, rfl⟩ := hf
      exact ⟨hd, rfl⟩
  · rintro ⟨k, hk, rfl, rfl⟩
    simp [kindTokens] at hk
    rcases hk with rfl | rfl | rfl | rfl | rfl <;>
      simp [reKind, kindTokens, List.findSome?, dropPrefix?, List.isPrefixOf]

theorem reData_eq_some (s r : Str) (n : Nat) :
    reData s = some (n, r) ↔ ∃ d, s = d ++ ')' :: r ∧ d ≠ [] ∧ ')' ∉ d ∧ n = d.length := by
  have hsplit := List.takeWhile_append_dropWhile (fun c => c != ')') s
  constructor
  · intro h
    unfold reData at h
    split at h
    · rename_i x r1 hdrop
      split at h
      · cases h
      · rename_i hne
        simp only [Option.some.injEq, Prod.mk.injEq] at h
        obtain ⟨rfl, rfl⟩ := h
        have hx : x = ')' := by
          have := List.head_dropWhile_not (fun c => c != ')') s (by rw [hdrop]; simp)
          simpa [hdrop] using this
        subst hx
        refine ⟨s.takeWhile (fun c => c != ')'), ?_, hne, ?_, rfl⟩
        · rw [← hdrop, hsplit]
        · intro hmem
          have := List.mem_takeWhile_imp hmem
          simp at this
    · cases h
  · rintro ⟨d, rfl, hne, hnot, rfl⟩
    have htake : List.takeWhile (fun c => c != ')') (d ++ ')' :: r) = d := by
      rw [List.takeWhile_append_of_pos]
      · simp
      · intro a ha
        have : a ≠ ')' := fun h => hnot (h ▸ ha)
        simpa using this
    have hdrop : List.dropWhile (fun c => c != ')') (d ++ ')' :: r) = ')' :: r := by
      rw [List.dropWhile_append_of_pos]
      · simp
      · intro a ha
        have : a ≠ ')' := fun h => hnot (h ▸ ha)
        simpa using this
    unfold reData
    rw [hdrop, htake]
    simp [hne]

theorem beforeLast_eq_none (c : Char) (s : Str) : beforeLast c s = none ↔ c ∉ s := by
  induction s with
  | nil => simp [beforeLast]
  | cons x xs ih =>
    unfold beforeLast
    cases h : beforeLast c xs with
    | some ys =>
      have : ¬ c ∉ xs := fun hn => by rw [ih.2 hn] at h; cases h
      simp only [not_not] at this
      simp [this]
    | none =>
      have hc := ih.1 h
      by_cases hx : x = c
      · subst hx; simp
      · have hx2 : ¬ c = x := fun h => hx h.symm
        simp [hx, hc, hx2]

theorem beforeLast_eq_some (c : Char) (s t : Str) :
    beforeLast c s = some t ↔ ∃ tail, s = t ++ c :: tail ∧ c ∉ tail := by
  induction s generalizing t with
  | nil => simp [beforeLast]
  | cons x xs ih =>
    unfold beforeLast
    cases h : beforeLast c xs with
    | some ys =>
      obtain ⟨tail, hxs, htail⟩ := (ih ys).1 h
      simp only [Option.some.injEq]
      constructor
      · rintro rfl
        exact ⟨tail, by rw [hxs]; rfl, htail⟩
      · rintro ⟨tail2, h2, htail2⟩
        cases t with
        | nil =>
          simp only [List.nil_append, List.cons.injEq] at h2
          obtain ⟨-, rfl⟩ := h2
          rw [(beforeLast_eq_none c xs).2 htail2] at h
          cases h
        | cons y t1 =>
          simp only [List.cons_append, List.cons.injEq] at h2
          obtain ⟨rfl, h3⟩ := h2
          have := (ih t1).2 ⟨tail2, h3, htail2⟩
          rw [h] at this
          simp only [Option.some.injEq] at this
          rw [this]
    | none =>
      have hc := (beforeLast_eq_none c xs).1 h
      by_cases hx : x = c
      · subst hx
        simp only [if_true, Option.some.injEq]
        constructor
        · rintro rfl
          exact ⟨xs, rfl, hc⟩
        · rintro ⟨tail2, h2, htail2⟩
          cases t with
          | nil => rfl
          | cons y t1 =>
            simp only [List.cons_append, List.cons.injEq] at h2
            obtain ⟨-, h3⟩ := h2
            exact absurd (by rw [h3]; simp) hc
      · simp only [hx, if_false]
        constructor
        · intro h0; cases h0
        · rintro ⟨tail2, h2, htail2⟩
          cases t with
          | nil =>
            simp only [List.nil_append, List.cons.injEq] at h2
            exact absurd h2.1 hx
          | cons y t1 =>
            simp only [List.cons_append, List.cons.injEq] at h2
            obtain ⟨-, h3⟩ := h2
            exact absurd (by rw [h3]; simp) hc

/-! ## What `regexec` returns -/

theorem grammar_of_regexec (value : Str) (ms : RegMatches) (h : regexec value = some ms) :
    ∃ ver dot kind data rest : Str,
      value = "gstreamer".toList ++ ver ++ dot ++ '(' :: kind ++ '-' :: data ++ ')' :: rest ∧
      GrammarPieces ver dot kind data ∧ ms = groupsOf ver dot kind data rest := by
  unfold regexec at h
  simp only [bind, Option.bind_eq_some, pure] at h
  obtain ⟨r0, h0, ⟨n1, r1⟩, h1, h⟩ := h
  rw [dropPrefix?_eq_some] at h0
  rw [reVersion_eq_some] at h1
  rcases reDotZero_spec r1 with ⟨r2, hr1, hdz⟩ | ⟨hnd, hdz⟩
  all_goals
    rw [hdz] at h
    simp only [Option.bind_eq_some] at h
    obtain ⟨r3, h3, ⟨n3, r4⟩, hk, h⟩ := h
    simp only [Option.bind_eq_some] at h
    obtain ⟨r5, h5, ⟨n4, r6⟩, hd, h⟩ := h
    simp only [Option.some.injEq] at h
    rw [dropPrefix?_eq_some] at h3 h5
    rw [reKind_eq_some] at hk
    rw [reData_eq_some] at hd
    obtain ⟨kind, hkind, rfl, rfl⟩ := hk
    obtain ⟨data, rfl, hne, hnot, rfl⟩ := hd
  · rcases h1 with ⟨rfl, rfl⟩ | ⟨c, rfl, rfl⟩
    · refine ⟨['1'], ".0".toList, kind, data, r6, ?_, ⟨Or.inl rfl, Or.inr rfl, hkind, hne, hnot⟩, ?_⟩
      · subst h0 hr1 h3 h5; simp
      · rw [← h]; simp [groupsOf]
    · refine ⟨['0', c, '1', '0'], ".0".toList, kind, data, r6, ?_,
        ⟨Or.inr ⟨c, rfl⟩, Or.inr rfl, hkind, hne, hnot⟩, ?_⟩
      · subst h0 hr1 h3 h5; simp
      · rw [← h]; simp [groupsOf]
  · rcases h1 with ⟨rfl, rfl⟩ | ⟨c, rfl, rfl⟩
    · refine ⟨['1'], [], kind, data, r6, ?_, ⟨Or.inl rfl, Or.inl rfl, hkind, hne, hnot⟩, ?_⟩
      · subst h0 h3 h5; simp
      · rw [← h]; simp [groupsOf]
    · refine ⟨['0', c, '1', '0'], [], kind, data, r6, ?_,
        ⟨Or.inr ⟨c, rfl⟩, Or.inl rfl, hkind, hne, hnot⟩, ?_⟩
      · subst h0 h3 h5; simp
      · rw [← h]; simp [groupsOf]

theorem regexec_of_grammar (ver dot kind data rest : Str) (hp : GrammarPieces ver dot kind data) :
    regexec ("gstreamer".toList ++ ver ++ dot ++ '(' :: kind ++ '-' :: data ++ ')' :: rest) =
      some (groupsOf ver dot kind data rest) := by
  obtain ⟨hver, hdot, hkind, hne, hnot⟩ := hp
  have e0 : dropPrefix? "gstreamer".toList
      ("gstreamer".toList ++ ver ++ dot ++ '(' :: kind ++ '-' :: data ++ ')' :: rest) =
      some (ver ++ (dot ++ ('(' :: (kind ++ ('-' :: (data ++ ')' :: rest)))))) := by
    rw [dropPrefix?_eq_some]; simp
  have e1 : reVersion (ver ++ (dot ++ ('(' :: (kind ++ ('-' :: (data ++ ')' :: rest)))))) =
      some (ver.length, dot ++ ('(' :: (kind ++ ('-' :: (data ++ ')' :: rest))))) := by
    rw [reVersion_eq_some]
    rcases hver with rfl | ⟨c, rfl⟩
    · left; exact ⟨rfl, rfl⟩
    · right; exact ⟨c, rfl, rfl⟩
  have e2 : reDotZero (dot ++ ('(' :: (kind ++ ('-' :: (data ++ ')' :: rest))))) =
      (dot.length, '(' :: (kind ++ ('-' :: (data ++ ')' :: rest)))) := by
    rcases hdot with rfl | rfl
    · simp [reDotZero, dropPrefix?, List.isPrefixOf]
    · simp [reDotZero, dropPrefix?, List.isPrefixOf]
  have e3 : dropPrefix? "(".toList ('(' :: (kind ++ ('-' :: (data ++ ')' :: rest)))) =
      some (kind ++ ('-' :: (data ++ ')' :: rest))) := by
    rw [dropPrefix?_eq_some]; simp
  have e4 : reKind (kind ++ ('-' :: (data ++ ')' :: rest))) =
      some (kind.length, '-' :: (data ++ ')' :: rest)) := by
    rw [reKind_eq_some]; exact ⟨kind, hkind, rfl, rfl⟩
  have e5 : dropPrefix? "-".toList ('-' :: (data ++ ')' :: rest)) = some (data ++ ')' :: rest) := by
    rw [dropPrefix?_eq_some]; simp
  have e6 : reData (data ++ ')' :: rest) = some (data.length, rest) := by
    rw [reData_eq_some]; exact ⟨data, rfl, hne, hnot, rfl⟩
  unfold regexec
  simp only [bind, pure, e0, Option.some_bind, e1, e2, e3, e4, e5, e6]
  simp [groupsOf]

theorem regexec_isSome_iff (value : Str) : (regexec value).isSome ↔ MatchesGrammar value := by
  constructor
  · intro h
    obtain ⟨ms, hms⟩ := Option.isSome_iff_exists.1 h
    obtain ⟨ver, dot, kind, data, rest, hv, hp, -⟩ := grammar_of_regexec value ms hms
    exact ⟨ver, dot, kind, data, rest, hv, hp⟩
  · rintro ⟨ver, dot, kind, data, rest, rfl, hp⟩
    rw [regexec_of_grammar ver dot kind data rest hp]
    rfl

theorem regexec_eq_none_iff (value : Str) : regexec value = none ↔ ¬ MatchesGrammar value := by
  rw [← regexec_isSome_iff]
  cases regexec value <;> simp

/-! ## What `find` returns -/

theorem findAux_eq_some_iff (pat s : Str) (i p : Nat) :
    findAux pat s i = some p ↔
      ∃ k, p = i + k ∧ k ≤ s.length ∧ pat <+: s.drop k ∧ ∀ j < k, ¬ pat <+: s.drop j := by
  induction s generalizing i with
  | nil =>
    unfold findAux
    by_cases h : pat.isPrefixOf [] = true
    · rw [if_pos h]
      constructor
      · intro h0
        simp only [Option.some.injEq] at h0
        exact ⟨0, by omega, by simp, by simpa [ List.isPrefixOf_iff_prefix] using h, by simp⟩
      · rintro ⟨k, rfl, hk, -, -⟩
        simp only [List.length_nil, Nat.le_zero_eq] at hk
        subst hk; rfl
    · rw [if_neg h]
      constructor
      · intro h0; cases h0
      · rintro ⟨k, -, -, hpre, -⟩
        rw [List.drop_nil] at hpre
        exact absurd (List.isPrefixOf_iff_prefix.2 hpre) h
  | cons c cs ih =>
    unfold findAux
    by_cases h : pat.isPrefixOf (c :: cs) = true
    · rw [if_pos h]
      constructor
      · intro h0
        simp only [Option.some.injEq] at h0
        exact ⟨0, by omega, by simp, by simpa [ List.isPrefixOf_iff_prefix] using h, by simp⟩
      · rintro ⟨k, rfl, -, -, hfirst⟩
        cases k with
        | zero => rfl
        | succ k =>
          exact absurd (by simpa [ List.isPrefixOf_iff_prefix] using h) (hfirst 0 (by omega))
    · rw [if_neg h, ih]
      have h0 : ¬ pat <+: c :: cs := fun hp => h (List.isPrefixOf_iff_prefix.2 hp)
      constructor
      · rintro ⟨k, rfl, hk, hpre, hfirst⟩
        refine ⟨k + 1, by omega, by simpa using hk, by simpa using hpre, ?_⟩
        intro j hj
        cases j with
        | zero => simpa using h0
        | succ j => simpa using hfirst j (by omega)
      · rintro ⟨k, rfl, hk, hpre, hfirst⟩
        cases k with
        | zero => exact absurd (by simpa using hpre) h0
        | succ k =>
          refine ⟨k, by omega, by simpa using hk, by simpa using hpre, ?_⟩
          intro j hj
          simpa using hfirst (j + 1) (by omega)

theorem findAux_eq_none_iff (pat s : Str) (i : Nat) :
    findAux pat s i = none ↔ ∀ k ≤ s.length, ¬ pat <+: s.drop k := by
  induction s generalizing i with
  | nil =>
    unfold findAux
    by_cases h : pat.isPrefixOf [] = true
    · rw [if_pos h]
      constructor
      · intro h0; cases h0
      · intro hall
        exact absurd (by simpa [ List.isPrefixOf_iff_prefix] using h) (hall 0 (by simp))
    · rw [if_neg h]
      simp only [true_iff]
      intro k _ hpre
      rw [List.drop_nil] at hpre
      exact h (List.isPrefixOf_iff_prefix.2 hpre)
  | cons c cs ih =>
    unfold findAux
    by_cases h : pat.isPrefixOf (c :: cs) = true
    · rw [if_pos h]
      constructor
      · intro h0; cases h0
      · intro hall
        exact absurd (by simpa [ List.isPrefixOf_iff_prefix] using h) (hall 0 (by simp))
    · rw [if_neg h, ih]
      have h0 : ¬ pat <+: c :: cs := fun hp => h (List.isPrefixOf_iff_prefix.2 hp)
      constructor
      · intro hall k hk
        cases k with
        | zero => simpa using h0
        | succ k => simpa using hall k (by simpa using hk)
      · intro hall k hk
        simpa using hall (k + 1) (by simpa using hk)

theorem find_eq_some_iff (s pat : Str) (pos p : Nat) :
    find s pat pos = some p ↔
      ∃ k, p = pos + k ∧ pos + k ≤ s.length ∧ pat <+: s.drop (pos + k) ∧
        ∀ j < k, ¬ pat <+: s.drop (pos + j) := by
  unfold find
  by_cases h : pos ≤ s.length
  · rw [if_pos h, findAux_eq_some_iff]
    constructor
    · rintro ⟨k, rfl, hk, hpre, hfirst⟩
      refine ⟨k, rfl, ?_, ?_, ?_⟩
      · rw [List.length_drop] at hk; omega
      · simpa [List.drop_drop, Nat.add_comm] using hpre
      · intro j hj
        simpa [List.drop_drop, Nat.add_comm] using hfirst j hj
    · rintro ⟨k, rfl, hk, hpre, hfirst⟩
      refine ⟨k, rfl, ?_, ?_, ?_⟩
      · rw [List.length_drop]; omega
      · simpa [List.drop_drop, Nat.add_comm] using hpre
      · intro j hj
        simpa [List.drop_drop, Nat.add_comm] using hfirst j hj
  · rw [if_neg h]
    constructor
    · intro h0; cases h0
    · rintro ⟨k, -, hk, -, -⟩
      omega

theorem find_eq_none_iff (s pat : Str) (pos : Nat) :
    find s pat pos = none ↔ ∀ k, pos + k ≤ s.length → ¬ pat <+: s.drop (pos + k) := by
  unfold find
  by_cases h : pos ≤ s.length
  · rw [if_pos h, findAux_eq_none_iff]
    constructor
    · intro hall k hk
      have := hall k (by rw [List.length_drop]; omega)
      simpa [List.drop_drop, Nat.add_comm] using this
    · intro hall k hk
      have := hall k (by rw [List.length_drop] at hk; omega)
      simpa [List.drop_drop, Nat.add_comm] using this
  · rw [if_neg h]
    simp only [true_iff]
    intro k hk
    omega

/-- An occurrence of the pattern anywhere in the string is found from index 0. -/
theorem find_isSome_of_infix (s pat : Str) (h : pat <:+: s) : (find s pat 0).isSome := by
  cases hf : find s pat 0 with
  | some p => rfl
  | none =>
    rw [find_eq_none_iff] at hf
    obtain ⟨a, b, rfl⟩ := h
    exact absurd ⟨b, by simp⟩ (hf a.length (by simp))

theorem not_infix_of_find_none (s pat : Str) (h : find s pat 0 = none) : ¬ pat <:+: s := by
  intro hin
  have := find_isSome_of_infix s pat hin
  rw [h] at this
  cases this

theorem find_none_of_not_infix (s pat : Str) (pos : Nat) (h : ¬ pat <:+: s) :
    find s pat pos = none := by
  rw [find_eq_none_iff]
  intro k _ hpre
  apply h
  obtain ⟨t, ht⟩ := hpre
  refine ⟨s.take (pos + k), t, ?_⟩
  rw [List.append_assoc, ht, List.take_append_drop]

/-! ## The matching loop -/

theorem matchesLoop_eq_true_iff {Caps : Type} (alg : CapabilityAlgebra Caps) (record arch : Str)
    (qs : List (Match Caps)) :
    matchesLoop alg record arch qs = true ↔ ∃ q ∈ qs, matchesBody alg record arch q = true := by
  induction qs with
  | nil => simp [matchesLoop]
  | cons m rest ih =>
    unfold matchesLoop
    by_cases h : matchesBody alg record arch m = true
    · simp [h]
    · simp [h, ih]

theorem matchesLoop_single {Caps : Type} (alg : CapabilityAlgebra Caps) (record arch : Str)
    (q : Match Caps) : matchesLoop alg record arch [q] = matchesBody alg record arch q := by
  simp [matchesLoop]

/-! ## Claims about `matches` -/

/-- C1: `matches(record, arch)` on a stored query list is true exactly when some
query of the list satisfies the record on its own (a matcher holding only that
query returns true), and so it is false when no single query is satisfied. -/
theorem matches_iff_some_query_matches {Caps : Type} (alg : CapabilityAlgebra Caps)
    (qs : List (Match Caps)) (record arch : Str) :
    ((GstMatcher.mk qs).matches alg record arch = true ↔
        ∃ q ∈ qs, (GstMatcher.mk [q]).matches alg record arch = true) ∧
      ((∀ q ∈ qs, (GstMatcher.mk [q]).matches alg record arch = false) ↔
        (GstMatcher.mk qs).matches alg record arch = false) := by
  have key : (GstMatcher.mk qs).matches alg record arch = true ↔
      ∃ q ∈ qs, (GstMatcher.mk [q]).matches alg record arch = true := by
    simp only [GstMatcher.matches, matchesLoop_single]
    exact matchesLoop_eq_true_iff alg record arch qs
  refine ⟨key, ?_⟩
  constructor
  · intro hall
    cases hm : (GstMatcher.mk qs).matches alg record arch with
    | false => rfl
    | true =>
      obtain ⟨q, hq, hq1⟩ := key.1 hm
      rw [hall q hq] at hq1
      cases hq1
  · intro hm q hq
    cases h1 : (GstMatcher.mk [q]).matches alg record arch with
    | false => rfl
    | true =>
      rw [key.2 ⟨q, hq, h1⟩] at hm
      cases hm

/-- C2, as stated, fails: in `kindFirstRecord` the version marker of the stored
query `wmaDecoder` is found at index 42, the kind marker occurs nowhere from the
end of that match on (only before it), and the matcher holding only this query
still returns true, because `record.find(match.type)` starts at index 0. -/
theorem kind_gate_after_version_counterexample :
    (GstMatcher.GstMatcher textAlgebra ["gstreamer1.0(decoder-audio/x-wma)".toList]).m_matches
        = [wmaDecoder] ∧
      find kindFirstRecord wmaDecoder.version 0 = some 42 ∧
      find kindFirstRecord wmaDecoder.type (42 + wmaDecoder.version.length) = none ∧
      (GstMatcher.mk [wmaDecoder]).matches textAlgebra kindFirstRecord [] = true := by
  decide

/-- C2 (amended): when the record contains the version marker of a stored query
and the query's kind marker occurs nowhere in the record, the query is skipped:
a matcher holding only it returns false. -/
theorem kind_gate_absent_marker {Caps : Type} (alg : CapabilityAlgebra Caps) (q : Match Caps)
    (record arch : Str) (_hver : q.version <:+: record) (hkind : ¬ q.type <:+: record) :
    (GstMatcher.mk [q]).matches alg record arch = false := by
  have h1 : find record q.type 0 = none := find_none_of_not_infix record q.type 0 hkind
  simp only [GstMatcher.matches, matchesLoop_single, matchesBody, h1]
  cases find record q.version 0 with
  | none => rfl
  | some p =>
    by_cases ha : q.arch ≠ [] ∧ arch ≠ q.arch
    · simp only [if_pos ha]
    · simp only [if_neg ha]

/-- Witness for C2 (amended): `noDecoderRecord` has the version marker of
`wmaDecoder` and no decoder marker. -/
theorem kind_gate_absent_marker_witness :
    wmaDecoder.version <:+: noDecoderRecord ∧ ¬ wmaDecoder.type <:+: noDecoderRecord ∧
      (GstMatcher.mk [wmaDecoder]).matches textAlgebra noDecoderRecord [] = false :=
  have hv : wmaDecoder.version <:+: noDecoderRecord :=
    ⟨"Package: x".toList, ".0\nGstreamer-Encoders: audio/x-wma\n".toList, by decide⟩
  have hk : ¬ wmaDecoder.type <:+: noDecoderRecord :=
    not_infix_of_find_none _ _ (by decide)
  ⟨hv, hk, kind_gate_absent_marker textAlgebra wmaDecoder noDecoderRecord [] hv hk⟩

theorem matchesBody_arch_gate {Caps : Type} (alg : CapabilityAlgebra Caps) (q : Match Caps)
    (record arch : Str) (h : q.arch ≠ [] ∧ arch ≠ q.arch) :
    matchesBody alg record arch q = false := by
  unfold matchesBody
  cases find record q.version 0 with
  | none => rfl
  | some p => simp only [if_pos h]

/-- C3: a matcher whose stored queries all carry a non-empty `arch` different
from the caller's `arch` returns false from `matches(record, arch)`, for every
record and every capability engine. -/
theorem arch_gate_all_differ {Caps : Type} (alg : CapabilityAlgebra Caps) (qs : List (Match Caps))
    (record arch : Str) (h : ∀ q ∈ qs, q.arch ≠ [] ∧ q.arch ≠ arch) :
    (GstMatcher.mk qs).matches alg record arch = false := by
  cases hm : (GstMatcher.mk qs).matches alg record arch with
  | false => rfl
  | true =>
    obtain ⟨q, hq, hb⟩ := (matchesLoop_eq_true_iff alg record arch qs).1 hm
    rw [matchesBody_arch_gate alg q record arch ⟨(h q hq).1, fun e => (h q hq).2 e.symm⟩] at hb
    cases hb

/-- Witness for C3: the 64-bit descriptor matches `wmaRecord` for `amd64` and not
for `i386`. -/
theorem arch_gate_all_differ_witness :
    (∀ q ∈ [wmaDecoder64], q.arch ≠ [] ∧ q.arch ≠ "i386".toList) ∧
      (GstMatcher.mk [wmaDecoder64]).matches textAlgebra wmaRecord "amd64".toList = true ∧
      (GstMatcher.mk [wmaDecoder64]).matches textAlgebra wmaRecord "i386".toList = false :=
  have h : ∀ q ∈ [wmaDecoder64], q.arch ≠ [] ∧ q.arch ≠ "i386".toList := by
    intro q hq
    rw [List.mem_singleton] at hq
    subst hq
    decide
  ⟨h, by decide, arch_gate_all_differ textAlgebra [wmaDecoder64] wmaRecord "i386".toList h⟩

/-- C6: a matcher constructed from an empty sequence of raw queries has
`hasMatches()` false and `matches(record, arch)` false for every record and arch. -/
theorem empty_query_array {Caps : Type} (alg : CapabilityAlgebra Caps) (record arch : Str) :
    (GstMatcher.GstMatcher alg []).hasMatches = false ∧
      (GstMatcher.GstMatcher alg []).matches alg record arch = false := by
  constructor <;> rfl

/-! ## What the constructor computes for a query of the grammar -/

theorem reOptions_eq (rest : Str) :
    reOptions rest = (optionsText rest).map (fun inner => inner.length + 2) := by
  unfold reOptions optionsText
  split <;> rfl

theorem optionsText_eq_some (rest inner : Str) :
    optionsText rest = some inner ↔ ∃ tail, rest = '(' :: inner ++ ')' :: tail ∧ ')' ∉ tail := by
  unfold optionsText
  split
  · rename_i r
    rw [beforeLast_eq_some]
    simp
  · rename_i h
    constructor
    · intro h0; cases h0
    · rintro ⟨tail, rfl, -⟩
      exact absurd rfl (h _)

theorem queryFields_of_grammar (ver dot kind data rest : Str)
    (hp : GrammarPieces ver dot kind data) :
    queryFields ("gstreamer".toList ++ ver ++ dot ++ '(' :: kind ++ '-' :: data ++ ')' :: rest) =
      some { version := "\nGstreamer-Version: ".toList ++ ver, type := typeMarker kind,
             data := data, opt := (optArchOf rest).1, arch := (optArchOf rest).2 } := by
  unfold queryFields
  rw [regexec_of_grammar ver dot kind data rest hp]
  obtain ⟨-, -, -, -, -⟩ := hp
  have h1 : substr ("gstreamer".toList ++ ver ++ dot ++ '(' :: kind ++ '-' :: data ++ ')' :: rest)
      9 (9 + ver.length - 9) = ver :=
    substr_of_eq _ "gstreamer".toList ver (dot ++ '(' :: kind ++ '-' :: data ++ ')' :: rest) _ _
      (by simp) (by simp) (by omega)
  have h3 : substr ("gstreamer".toList ++ ver ++ dot ++ '(' :: kind ++ '-' :: data ++ ')' :: rest)
      (9 + ver.length + dot.length + 1)
      (9 + ver.length + dot.length + 1 + kind.length - (9 + ver.length + dot.length + 1)) = kind :=
    substr_of_eq _ ("gstreamer".toList ++ ver ++ dot ++ ['(']) kind ('-' :: data ++ ')' :: rest) _ _
      (by simp) (by simp; omega) (by omega)
  have h4 : substr ("gstreamer".toList ++ ver ++ dot ++ '(' :: kind ++ '-' :: data ++ ')' :: rest)
      (9 + ver.length + dot.length + 1 + kind.length + 1)
      (9 + ver.length + dot.length + 1 + kind.length + 1 + data.length -
        (9 + ver.length + dot.length + 1 + kind.length + 1)) = data :=
    substr_of_eq _ ("gstreamer".toList ++ ver ++ dot ++ '(' :: kind ++ ['-']) data (')' :: rest) _ _
      (by simp) (by simp; omega) (by omega)
  simp only [groupsOf, h1, h3, h4, reOptions_eq, optArchOf]
  cases ho : optionsText rest with
  | none => rfl
  | some inner =>
    obtain ⟨tail, rfl, -⟩ := (optionsText_eq_some rest inner).1 ho
    have h5 : substr ("gstreamer".toList ++ ver ++ dot ++ '(' :: kind ++ '-' :: data ++
          ')' :: ('(' :: inner ++ ')' :: tail))
        (9 + ver.length + dot.length + 1 + kind.length + 1 + data.length + 1 + 1)
        (9 + ver.length + dot.length + 1 + kind.length + 1 + data.length + 1 + (inner.length + 2) -
          (9 + ver.length + dot.length + 1 + kind.length + 1 + data.length + 1) - 2) = inner :=
      substr_of_eq _ ("gstreamer".toList ++ ver ++ dot ++ '(' :: kind ++ '-' :: data ++ [')', '('])
        inner (')' :: tail) _ _ (by simp) (by simp; omega) (by omega)
    simp only [Option.map_some', h5]

theorem queryFields_isSome_iff (value : Str) :
    (queryFields value).isSome ↔ MatchesGrammar value := by
  rw [← regexec_isSome_iff]
  unfold queryFields
  cases regexec value <;> simp

theorem parseValue_isSome_iff {Caps : Type} (alg : CapabilityAlgebra Caps) (value : Str) :
    (parseValue alg value).isSome ↔
      ∃ f, queryFields value = some f ∧
        (alg.gst_caps_from_string (capsString f.data f.opt)).isSome := by
  unfold parseValue
  cases hq : queryFields value with
  | none => simp
  | some f =>
    cases hc : alg.gst_caps_from_string (capsString f.data f.opt) with
    | none => simp [hc]
    | some caps => simp [hc]

theorem parseValue_none_of_not_grammar {Caps : Type} (alg : CapabilityAlgebra Caps) (value : Str)
    (h : ¬ MatchesGrammar value) : parseValue alg value = none := by
  have hq : queryFields value = none := by
    cases hq : queryFields value with
    | none => rfl
    | some f => exact absurd ((queryFields_isSome_iff value).1 (by rw [hq]; rfl)) h
  unfold parseValue
  rw [hq]

theorem constructorLoop_eq_filterMap {Caps : Type} (alg : CapabilityAlgebra Caps)
    (values : List Str) (init : List (Match Caps)) :
    values.foldl (constructorStep alg) init = init ++ values.filterMap (parseValue alg) := by
  induction values generalizing init with
  | nil => simp
  | cons v vs ih =>
    rw [List.foldl_cons, ih]
    unfold constructorStep
    cases hf : parseValue alg v with
    | none => simp [List.filterMap_cons, hf]
    | some m => simp [List.filterMap_cons, hf]

theorem constructor_eq_filterMap {Caps : Type} (alg : CapabilityAlgebra Caps) (values : List Str) :
    (GstMatcher.GstMatcher alg values).m_matches = values.filterMap (parseValue alg) := by
  unfold GstMatcher.GstMatcher
  simp only
  rw [constructorLoop_eq_filterMap]
  simp

/-! ## Claims about the constructor -/

/-- C4: the constructor is an order-preserving filter.  The stored sequence is
the input sequence with each string replaced by its descriptor when one is
built and left out otherwise; a descriptor is built exactly for the strings that
match the grammar and whose expression text `gst_caps_from_string` accepts;
`hasMatches()` is true exactly when some input string is of that kind; and one
accepted string together with one string that does not match the grammar
stores exactly one query, in either order. -/
theorem constructor_order_preserving_filter {Caps : Type} (alg : CapabilityAlgebra Caps)
    (values : List Str) :
    (GstMatcher.GstMatcher alg values).m_matches = values.filterMap (parseValue alg) ∧
      (∀ value, (parseValue alg value).isSome ↔
        MatchesGrammar value ∧ ∃ f, queryFields value = some f ∧
          (alg.gst_caps_from_string (capsString f.data f.opt)).isSome) ∧
      ((GstMatcher.GstMatcher alg values).hasMatches = true ↔
        ∃ value ∈ values, (parseValue alg value).isSome) ∧
      (∀ good bad, (parseValue alg good).isSome → ¬ MatchesGrammar bad →
        (GstMatcher.GstMatcher alg [good, bad]).m_matches.length = 1 ∧
        (GstMatcher.GstMatcher alg [bad, good]).m_matches.length = 1) := by
  refine ⟨constructor_eq_filterMap alg values, ?_, ?_, ?_⟩
  · intro value
    rw [parseValue_isSome_iff]
    constructor
    · rintro ⟨f, hf, hc⟩
      exact ⟨(queryFields_isSome_iff value).1 (by rw [hf]; rfl), f, hf, hc⟩
    · rintro ⟨-, h⟩
      exact h
  · unfold GstMatcher.hasMatches
    rw [constructor_eq_filterMap]
    constructor
    · intro h
      cases hl : values.filterMap (parseValue alg) with
      | nil => rw [hl] at h; cases h
      | cons m ms =>
        have hm : m ∈ values.filterMap (parseValue alg) := by rw [hl]; simp
        obtain ⟨value, hv, hpv⟩ := List.mem_filterMap.1 hm
        exact ⟨value, hv, by rw [hpv]; rfl⟩
    · rintro ⟨value, hv, hsome⟩
      obtain ⟨m, hm⟩ := Option.isSome_iff_exists.1 hsome
      have hmem : m ∈ values.filterMap (parseValue alg) := List.mem_filterMap.2 ⟨value, hv, hm⟩
      cases hl : values.filterMap (parseValue alg) with
      | nil => rw [hl] at hmem; cases hmem
      | cons m ms => rfl
  · intro good bad hgood hbad
    obtain ⟨m, hm⟩ := Option.isSome_iff_exists.1 hgood
    have hb := parseValue_none_of_not_grammar alg bad hbad
    rw [constructor_eq_filterMap, constructor_eq_filterMap]
    simp [List.filterMap_cons, hm, hb]

/-- Witness for C4: an accepted query and a query that does not match the grammar
store one descriptor, in either order. -/
theorem constructor_order_preserving_filter_witness :
    (GstMatcher.GstMatcher textAlgebra [wmaQuery, openGroupQuery]).m_matches.length = 1 ∧
      (GstMatcher.GstMatcher textAlgebra [openGroupQuery, wmaQuery]).m_matches.length = 1 :=
  (constructor_order_preserving_filter textAlgebra []).2.2.2 wmaQuery openGroupQuery (by decide)
    ((regexec_eq_none_iff openGroupQuery).1 (by decide))

/-- C5, as stated, fails: the query of the claim, whose options group lacks its
final `)`, is not dropped.  The pattern is not anchored at the end and its
options group is optional, so the required part alone matches and the
descriptor of `gstreamer1.0(decoder-audio/x-wma)` is stored. -/
theorem unbalanced_options_counterexample :
    (GstMatcher.GstMatcher textAlgebra
        ["gstreamer1.0(decoder-audio/x-wma)(wmaversion=3".toList]).m_matches = [wmaDecoder] := by
  decide

/-- C5 (amended): a raw query that lacks one of the required groups (it is not
`gstreamer`, a version, an optional `.0` and a closed `(kind-data)` group,
followed by anything) is dropped wherever it stands in the input; a query whose
required part is well formed and whose remaining text has no `)`, such as an
options group left open, is not dropped for that: its fields, and with them
whether and what is stored, are those of the query without that text. -/
theorem required_groups_missing_dropped {Caps : Type} (alg : CapabilityAlgebra Caps) :
    (∀ (before after : List Str) (value : Str), ¬ MatchesGrammar value →
        (GstMatcher.GstMatcher alg (before ++ value :: after)).m_matches =
          (GstMatcher.GstMatcher alg (before ++ after)).m_matches) ∧
      (∀ ver dot kind data rest : Str, GrammarPieces ver dot kind data → ')' ∉ rest →
        queryFields ("gstreamer".toList ++ ver ++ dot ++ '(' :: kind ++ '-' :: data ++ ')' :: rest) =
          some { version := "\nGstreamer-Version: ".toList ++ ver, type := typeMarker kind,
                 data := data, opt := [], arch := [] } ∧
        parseValue alg
            ("gstreamer".toList ++ ver ++ dot ++ '(' :: kind ++ '-' :: data ++ ')' :: rest) =
          parseValue alg ("gstreamer".toList ++ ver ++ dot ++ '(' :: kind ++ '-' :: data ++ [')'])) := by
  constructor
  · intro before after value h
    rw [constructor_eq_filterMap, constructor_eq_filterMap, List.filterMap_append,
      List.filterMap_append, List.filterMap_cons, parseValue_none_of_not_grammar alg value h]
  · intro ver dot kind data rest hp hrest
    have h1 : optionsText rest = none := by
      cases ho : optionsText rest with
      | none => rfl
      | some inner =>
        obtain ⟨tail, rfl, -⟩ := (optionsText_eq_some rest inner).1 ho
        exact absurd (by simp) hrest
    have h2 : optionsText [] = none := rfl
    have hq1 := queryFields_of_grammar ver dot kind data rest hp
    have hq2 := queryFields_of_grammar ver dot kind data [] hp
    simp only [optArchOf, h1] at hq1
    simp only [optArchOf, h2] at hq2
    refine ⟨hq1, ?_⟩
    unfold parseValue
    rw [hq1, hq2]

/-- Witness for C5 (amended): `openGroupQuery` is dropped, and the query with the
options group left open is parsed like the query without options. -/
theorem required_groups_missing_dropped_witness :
    ¬ MatchesGrammar openGroupQuery ∧
      (GstMatcher.GstMatcher textAlgebra ([wmaQuery] ++ openGroupQuery :: [])).m_matches =
        (GstMatcher.GstMatcher textAlgebra ([wmaQuery] ++ [])).m_matches ∧
      parseValue textAlgebra ("gstreamer".toList ++ ['1'] ++ ".0".toList ++ '(' :: "decoder".toList ++
          '-' :: "audio/x-wma".toList ++ ')' :: "(wmaversion=3".toList) =
        parseValue textAlgebra ("gstreamer".toList ++ ['1'] ++ ".0".toList ++ '(' :: "decoder".toList ++
          '-' :: "audio/x-wma".toList ++ [')']) :=
  have h : ¬ MatchesGrammar openGroupQuery := (regexec_eq_none_iff openGroupQuery).1 (by decide)
  ⟨h, (required_groups_missing_dropped textAlgebra).1 [wmaQuery] [] openGroupQuery h,
    ((required_groups_missing_dropped textAlgebra).2 ['1'] ".0".toList "decoder".toList
      "audio/x-wma".toList "(wmaversion=3".toList
      ⟨Or.inl rfl, Or.inr rfl, by decide, by decide, by decide⟩ (by decide)).2⟩

/-! ## The separator loop -/

theorem replaceRef_cons_of_not_sep (c : Char) (cs : Str) (h : ¬ ")(".toList <+: c :: cs) :
    replaceRef (c :: cs) = c :: replaceRef cs := by
  cases cs with
  | nil => simp [replaceRef]
  | cons d rest =>
    have hcd : ¬ (c = ')' ∧ d = '(') := by
      rintro ⟨rfl, rfl⟩
      exact h ⟨rest, by simp⟩
    conv_lhs => rw [replaceRef]
    rw [if_neg hcd]

theorem replaceRef_append_of_first (a rest : Str)
    (h : ∀ j < a.length, ¬ ")(".toList <+: (a ++ rest).drop j) :
    replaceRef (a ++ rest) = a ++ replaceRef rest := by
  induction a with
  | nil => rfl
  | cons c cs ih =>
    have h0 := h 0 (by simp)
    rw [List.cons_append, replaceRef_cons_of_not_sep c (cs ++ rest) (by simpa using h0), ih]
    · rfl
    · intro j hj
      simpa using h (j + 1) (by simpa using hj)

theorem replaceLoop_eq_replaceRef (fuel : Nat) (before s r : Str)
    (h : replaceLoop fuel (before ++ s) before.length = some r) : r = before ++ replaceRef s := by
  induction fuel generalizing before s with
  | zero => cases h
  | succ fuel ih =>
    unfold replaceLoop at h
    cases hf : find (before ++ s) ")(".toList before.length with
    | none =>
      rw [hf] at h
      simp only [Option.some.injEq] at h
      subst h
      rw [find_eq_none_iff] at hf
      have hs : replaceRef (s ++ []) = s ++ replaceRef [] := by
        apply replaceRef_append_of_first
        intro j hj
        have := hf j (by simp; omega)
        simpa using this
      simpa [replaceRef] using hs.symm
    | some p =>
      rw [hf] at h
      simp only at h
      obtain ⟨k, rfl, hk, ⟨t, ht⟩, hfirst⟩ := (find_eq_some_iff _ _ _ _).1 hf
      have hdrop : s.drop k = ')' :: '(' :: t := by
        have : (before ++ s).drop (before.length + k) = s.drop k := by
          rw [List.drop_append]
        rw [← this, ← ht]
        rfl
      have hs : s = s.take k ++ ')' :: '(' :: t := by
        rw [← hdrop, List.take_append_drop]
      have hklen : (s.take k).length = k := by
        rw [List.length_take]
        have : (s.drop k).length = t.length + 2 := by rw [hdrop]; rfl
        rw [List.length_drop] at this
        omega
      have href : replaceRef s = s.take k ++ replaceRef (')' :: '(' :: t) := by
        conv_lhs => rw [hs]
        apply replaceRef_append_of_first
        intro j hj
        rw [← hs]
        have := hfirst j (by rw [hklen] at hj; exact hj)
        rw [List.drop_append] at this
        exact this
      have hlen : (before ++ s).length = before.length + k + (t.length + 2) := by
        rw [List.length_append]
        conv_lhs => rw [hs]
        rw [List.length_append, hklen]
        simp
        omega
      have htake : (before ++ s).take (before.length + k) = before ++ s.take k := by
        rw [List.take_append]
      have hdrop2 : (before ++ s).drop (before.length + k + 2) = t := by
        have : before.length + k + 2 = before.length + (k + 2) := by omega
        rw [this, List.drop_append, ← List.drop_drop, hdrop]
        rfl
      by_cases hend : before.length + k = (before ++ s).length - 2
      · rw [if_pos hend] at h
        simp only [Option.some.injEq] at h
        have ht0 : t = [] := by
          apply List.eq_nil_of_length_eq_zero
          omega
        subst ht0
        rw [← h, href, erase, htake, hdrop2]
        simp [replaceRef]
      · rw [if_neg hend] at h
        have hne : t ≠ [] := by
          rintro rfl
          apply hend
          rw [hlen]
          simp
        have hrep : replace (before ++ s) (before.length + k) 2 ",".toList =
            (before ++ s.take k ++ [',']) ++ t := by
          rw [replace, htake, hdrop2]
          simp
        rw [hrep] at h
        have hpos : before.length + k + 1 = (before ++ s.take k ++ [',']).length := by
          simp [hklen]
          omega
        rw [hpos] at h
        have := ih _ _ h
        rw [this, href]
        simp [replaceRef, hne]

theorem replace_length (s t : Str) (pos n : Nat) (h : pos + n ≤ s.length) :
    (replace s pos n t).length = s.length - n + t.length := by
  unfold replace
  simp only [List.length_append, List.length_take, List.length_drop]
  omega

/-- The loop ends within `opt.length - start_pos + 1` evaluations of its condition. -/
theorem replaceLoop_isSome (fuel : Nat) (opt : Str) (start_pos : Nat)
    (h : opt.length - start_pos < fuel) : (replaceLoop fuel opt start_pos).isSome := by
  induction fuel generalizing opt start_pos with
  | zero => omega
  | succ fuel ih =>
    unfold replaceLoop
    cases hf : find opt ")(".toList start_pos with
    | none => rfl
    | some p =>
      simp only
      obtain ⟨k, rfl, hk, ⟨t, ht⟩, -⟩ := (find_eq_some_iff _ _ _ _).1 hf
      have hlen : start_pos + k + 2 ≤ opt.length := by
        have h1 : (opt.drop (start_pos + k)).length = t.length + 2 := by
          rw [← ht]; simp
        rw [List.length_drop] at h1
        omega
      by_cases hend : start_pos + k = opt.length - 2
      · rw [if_pos hend]; rfl
      · rw [if_neg hend]
        apply ih
        rw [replace_length _ _ _ _ hlen]
        simp
        omega

/-- The fuel `opt.length + 1` is enough: the loop ends and leaves
`replaceSeparators opt`. -/
theorem replaceLoop_length_succ (opt : Str) :
    replaceLoop (opt.length + 1) opt 0 = some (replaceSeparators opt) := by
  unfold replaceSeparators
  have h := replaceLoop_isSome (opt.length + 1) opt 0 (by omega)
  obtain ⟨r, hr⟩ := Option.isSome_iff_exists.1 h
  rw [hr]
  rfl

theorem replaceSeparators_eq_replaceRef (opt : Str) : replaceSeparators opt = replaceRef opt := by
  have h := replaceLoop_length_succ opt
  have := replaceLoop_eq_replaceRef (opt.length + 1) [] opt (replaceSeparators opt) h
  simpa using this

theorem replaceRef_eq_nil (s : Str) : replaceRef s = [] ↔ s = [] ∨ s = [')', '('] := by
  match s with
  | [] => simp [replaceRef]
  | [c] => simp [replaceRef]
  | c :: d :: rest =>
    rw [replaceRef]
    by_cases hcd : c = ')' ∧ d = '('
    · rw [if_pos hcd]
      obtain ⟨rfl, rfl⟩ := hcd
      by_cases hr : rest = []
      · simp [hr]
      · simp [hr]
    · rw [if_neg hcd]
      simp only [List.cons_ne_nil, false_or, false_iff]
      intro h
      simp only [List.cons.injEq] at h
      exact hcd ⟨h.1, h.2.1⟩

theorem not_suffix_cons (c : Char) (x : Str) (hx : x ≠ []) (h : ¬ [','] <:+ x) :
    ¬ [','] <:+ c :: x := by
  rw [List.suffix_cons_iff]
  rintro (h1 | h1)
  · simp only [List.cons.injEq] at h1
    exact hx h1.2.symm
  · exact h h1

/-- The output of the pass has no trailing comma when the text ends in `)(` and
the text before that `)(` ends neither in `,` nor in `)(`. -/
theorem replaceRef_no_trailing_comma (n : Nat) (body : Str) (hn : body.length ≤ n)
    (hcomma : ¬ [','] <:+ body) (hsep : ¬ [')', '('] <:+ body) :
    ¬ [','] <:+ replaceRef (body ++ [')', '(']) := by
  induction n generalizing body with
  | zero =>
    have : body = [] := List.eq_nil_of_length_eq_zero (by omega)
    subst this
    simp [replaceRef]
  | succ n ih =>
    match body, hn, hcomma, hsep with
    | [], _, _, _ => simp [replaceRef]
    | [c], _, hcomma, _ =>
      have hc : c ≠ ',' := by
        rintro rfl
        exact hcomma (List.suffix_refl _)
      have h1 : replaceRef ([c] ++ [')', '(']) = [c] := by
        simp [replaceRef]
      rw [h1]
      rintro ⟨t, ht⟩
      have hlen := congrArg List.length ht
      simp only [List.length_append, List.length_cons, List.length_nil] at hlen
      have : t = [] := List.eq_nil_of_length_eq_zero (by omega)
      subst this
      simp only [List.nil_append, List.cons.injEq, and_true] at ht
      exact hc ht.symm
    | c :: d :: rest, hn, hcomma, hsep =>
      have hlen : rest.length ≤ n := by
        simp only [List.length_cons] at hn; omega
      have hlen2 : (d :: rest).length ≤ n := by
        simp only [List.length_cons] at hn ⊢; omega
      rw [List.cons_append, List.cons_append, replaceRef]
      by_cases hcd : c = ')' ∧ d = '('
      · rw [if_pos hcd]
        obtain ⟨rfl, rfl⟩ := hcd
        have hrest : rest ≠ [] := by
          rintro rfl
          exact hsep (List.suffix_refl _)
        have hne : rest ++ [')', '('] ≠ [] := by simp
        rw [if_neg hne]
        have hc2 : ¬ [','] <:+ rest := fun h =>
          hcomma (h.trans ((List.suffix_cons _ _).trans (List.suffix_cons _ _)))
        have hs2 : ¬ [')', '('] <:+ rest := fun h =>
          hsep (h.trans ((List.suffix_cons _ _).trans (List.suffix_cons _ _)))
        apply not_suffix_cons _ _ _ (ih rest hlen hc2 hs2)
        intro h0
        rcases (replaceRef_eq_nil _).1 h0 with h1 | h1
        · exact hne h1
        · have := congrArg List.length h1
          simp only [List.length_append, List.length_cons, List.length_nil] at this
          exact hrest (List.eq_nil_of_length_eq_zero (by omega))
      · rw [if_neg hcd]
        have hc2 : ¬ [','] <:+ d :: rest := fun h => hcomma (h.trans (List.suffix_cons _ _))
        have hs2 : ¬ [')', '('] <:+ d :: rest := fun h => hsep (h.trans (List.suffix_cons _ _))
        have := ih (d :: rest) hlen2 hc2 hs2
        rw [List.cons_append] at this
        apply not_suffix_cons _ _ _ this
        intro h0
        rcases (replaceRef_eq_nil _).1 h0 with h1 | h1
        · cases h1
        · have := congrArg List.length h1
          simp only [List.length_append, List.length_cons, List.length_nil] at this
          omega

/-! ## Normalization of the options text -/

theorem ends_with_iff (str ending : Str) : ends_with str ending = true ↔ ending <:+ str := by
  unfold ends_with
  exact List.isSuffixOf_iff_suffix

theorem normalizeOpt_of_marker (body : Str) :
    normalizeOpt (body ++ ")(64bit".toList) = (replaceSeparators body, "amd64".toList) := by
  unfold normalizeOpt
  have hne : body ++ ")(64bit".toList ≠ [] := by simp
  have hend : ends_with (body ++ ")(64bit".toList) ")(64bit".toList = true :=
    (ends_with_iff _ _).2 ⟨body, rfl⟩
  rw [if_pos hne]
  simp only [hend, if_true]
  have : (body ++ ")(64bit".toList).take
      ((body ++ ")(64bit".toList).length - ")(64bit".toList.length) = body := by
    simp
  rw [this]

theorem normalizeOpt_of_no_marker (opt : Str) (h : ¬ ")(64bit".toList <:+ opt) :
    normalizeOpt opt = (replaceSeparators opt, []) := by
  unfold normalizeOpt
  by_cases hne : opt ≠ []
  · rw [if_pos hne]
    have hend : ¬ ends_with opt ")(64bit".toList = true := fun he => h ((ends_with_iff _ _).1 he)
    simp only [hend, if_false]
    rfl
  · rw [if_neg hne]
    simp only [ne_eq, not_not] at hne
    subst hne
    rfl

/-- C7: for a non-empty options text, `arch` is `amd64` exactly when the text ends
with `)(64bit` and is empty otherwise; in the first case the suffix is removed
before the separators are replaced, in the second the whole text goes through
the replacement; and `wmaversion=3)(64bit` gives `opt = wmaversion=3` with
`arch = amd64`. -/
theorem arch_marker_64bit (opt : Str) (_hne : opt ≠ []) :
    ((normalizeOpt opt).2 = "amd64".toList ↔ ")(64bit".toList <:+ opt) ∧
      (¬ ")(64bit".toList <:+ opt →
        (normalizeOpt opt).2 = [] ∧ (normalizeOpt opt).1 = replaceSeparators opt) ∧
      (∀ body, opt = body ++ ")(64bit".toList → (normalizeOpt opt).1 = replaceSeparators body) ∧
      normalizeOpt "wmaversion=3)(64bit".toList = ("wmaversion=3".toList, "amd64".toList) := by
  refine ⟨?_, ?_, ?_, by decide⟩
  · constructor
    · intro h
      by_contra hno
      rw [normalizeOpt_of_no_marker opt hno] at h
      cases h
    · rintro ⟨body, rfl⟩
      rw [normalizeOpt_of_marker]
  · intro hno
    rw [normalizeOpt_of_no_marker opt hno]
    exact ⟨rfl, rfl⟩
  · rintro body rfl
    rw [normalizeOpt_of_marker]

/-- Witness for C7: the options text `wmaversion=3)()(64bit`. -/
theorem arch_marker_64bit_witness :
    (normalizeOpt "wmaversion=3)()(64bit".toList).2 = "amd64".toList ∧
      (normalizeOpt "wmaversion=3)()(64bit".toList).1 = replaceSeparators "wmaversion=3)(".toList ∧
      (normalizeOpt "wmaversion=3".toList).2 = [] :=
  have h := arch_marker_64bit "wmaversion=3)()(64bit".toList (by decide)
  ⟨h.1.2 ⟨"wmaversion=3)(".toList, rfl⟩, h.2.2.1 "wmaversion=3)(".toList rfl, by decide⟩

/-- C8, as stated, fails: the options text `a,)(` ends in `)(` and its
constraints are `a,`; so do the constraints `a,` of `a)()(`, where the comma
is the one the loop wrote for the first `)(`. -/
theorem trailing_separator_counterexample :
    [')', '('] <:+ "a,)(".toList ∧ (normalizeOpt "a,)(".toList).1 = "a,".toList ∧
      [')', '('] <:+ "a)()(".toList ∧ (normalizeOpt "a)()(".toList).1 = "a,".toList ∧
      [','] <:+ "a,".toList :=
  ⟨⟨"a,".toList, rfl⟩, by decide, ⟨"a)(".toList, rfl⟩, by decide, ⟨"a".toList, rfl⟩⟩

/-- C8 (amended): for every options text that ends in `)(`, after removal of a
`)(64bit` suffix if there is one, and whose text before that final `)(` ends
neither in `,` nor in `)(`, the constraints do not end with `,`. -/
theorem no_trailing_separator (raw body : Str)
    (hraw : raw = body ++ [')', '('] ∨ raw = body ++ [')', '('] ++ ")(64bit".toList)
    (hcomma : ¬ [','] <:+ body) (hsep : ¬ [')', '('] <:+ body) :
    ¬ [','] <:+ (normalizeOpt raw).1 := by
  have key : (normalizeOpt raw).1 = replaceRef (body ++ [')', '(']) := by
    rcases hraw with rfl | rfl
    · have hno : ¬ ")(64bit".toList <:+ body ++ [')', '('] := by
        intro h
        have h1 : ['t'] <:+ body ++ [')', '('] := List.IsSuffix.trans ⟨")(64bi".toList, rfl⟩ h
        have h2 : ['('] <:+ body ++ [')', '('] := ⟨body ++ [')'], by simp⟩
        rcases List.suffix_or_suffix_of_suffix h1 h2 with h3 | h3
        · have := List.IsSuffix.eq_of_length h3 rfl
          cases this
        · have := List.IsSuffix.eq_of_length h3 rfl
          cases this
      rw [normalizeOpt_of_no_marker _ hno, replaceSeparators_eq_replaceRef]
    · rw [normalizeOpt_of_marker, replaceSeparators_eq_replaceRef]
  rw [key]
  exact replaceRef_no_trailing_comma body.length body (Nat.le_refl _) hcomma hsep

/-- Witness for C8 (amended): the options text `wmaversion=3)()(64bit`. -/
theorem no_trailing_separator_witness :
    (normalizeOpt "wmaversion=3)()(64bit".toList).1 = "wmaversion=3".toList ∧
      ¬ [','] <:+ (normalizeOpt "wmaversion=3)()(64bit".toList).1 :=
  ⟨by decide,
    no_trailing_separator "wmaversion=3)()(64bit".toList "wmaversion=3".toList (Or.inr rfl)
      (by decide) (by decide)⟩

/-- C9: for every accepted raw query the stored expression is the result of
`gst_caps_from_string` on exactly `data` when `opt` is empty and on exactly
`data`, then `", "`, then `opt` otherwise, where `data` and `opt` are the fields
computed from the query and stored with it. -/
theorem expression_text_of_stored_query {Caps : Type} (alg : CapabilityAlgebra Caps) (value : Str)
    (m : Match Caps) (h : parseValue alg value = some m) :
    (∃ f, queryFields value = some f ∧ m.data = f.data ∧ m.opt = f.opt) ∧
      (m.opt = [] → alg.gst_caps_from_string m.data = some m.caps) ∧
      (m.opt ≠ [] → alg.gst_caps_from_string (m.data ++ ", ".toList ++ m.opt) = some m.caps) := by
  unfold parseValue at h
  cases hq : queryFields value with
  | none => rw [hq] at h; cases h
  | some f =>
    rw [hq] at h
    simp only at h
    cases hc : alg.gst_caps_from_string (capsString f.data f.opt) with
    | none => rw [hc] at h; cases h
    | some caps =>
      rw [hc] at h
      simp only [Option.some.injEq] at h
      subst h
      refine ⟨⟨f, rfl, rfl, rfl⟩, ?_, ?_⟩
      · intro ho
        simp only at ho ⊢
        rw [← hc, capsString, if_pos ho]
      · intro ho
        simp only at ho ⊢
        rw [← hc, capsString, if_neg ho]

/-- Witness for C9: the round-trip query and the stand-in engine. -/
theorem expression_text_of_stored_query_witness :
    parseValue textAlgebra wmaQuery = some (wmaMatch wmaCapsText) ∧
      textAlgebra.gst_caps_from_string ("audio/x-wma".toList ++ ", ".toList ++ "wmaversion=3".toList)
        = some wmaCapsText :=
  have h : parseValue textAlgebra wmaQuery = some (wmaMatch wmaCapsText) := by decide
  ⟨h, (expression_text_of_stored_query textAlgebra wmaQuery (wmaMatch wmaCapsText) h).2.2
    (by decide)⟩

/-! ## The round trip -/

theorem findAux_line (c : Char) (line post : Str) (i : Nat) (hline : c ∉ line)
    (hpost : post = [] ∨ ∃ p, post = c :: p) :
    findAux [c] (line ++ post) i = if post = [] then none else some (i + line.length) := by
  induction line generalizing i with
  | nil =>
    rcases hpost with rfl | ⟨p, rfl⟩
    · simp [findAux, List.isPrefixOf]
    · simp [findAux, List.isPrefixOf]
  | cons x xs ih =>
    have hx : x ≠ c := fun h => hline (by simp [h])
    have hxs : c ∉ xs := fun h => hline (by simp [h])
    have hc : ¬ c = x := fun h => hx h.symm
    have hpre : List.isPrefixOf [c] (x :: (xs ++ post)) = false := by
      simp [List.isPrefixOf, hc]
    rw [List.cons_append, findAux, hpre]
    simp only [Bool.false_eq_true, if_false]
    rw [ih (i + 1) hxs]
    by_cases hp : post = []
    · simp [hp]
    · simp only [hp, if_false, List.length_cons, Option.some.injEq]
      omega

/-- The value taken from a record whose text from `found` on is one line free
of newlines, followed by the end of the record or by a newline. -/
theorem recordValue_line (before line post : Str) (hline : '\n' ∉ line)
    (hpost : post = [] ∨ ∃ p, post = '\n' :: p) :
    recordValue (before ++ (line ++ post)) before.length
        (findChar (before ++ (line ++ post)) '\n' before.length) = line := by
  have hfind : findChar (before ++ (line ++ post)) '\n' before.length =
      if post = [] then none else some (before.length + line.length) := by
    unfold findChar find
    rw [if_pos (by simp), List.drop_left]
    exact findAux_line '\n' line post before.length hline hpost
  rw [hfind]
  rcases hpost with rfl | ⟨p, rfl⟩
  · simp [recordValue]
  · simp [recordValue, substr]

theorem constructor_wmaQuery {Caps : Type} (alg : CapabilityAlgebra Caps) (c : Caps)
    (hparse : alg.gst_caps_from_string wmaCapsText = some c) :
    (GstMatcher.GstMatcher alg [wmaQuery]).m_matches = [wmaMatch c] := by
  have hq : queryFields wmaQuery =
      some { version := "\nGstreamer-Version: 1".toList, type := "Gstreamer-Decoders: ".toList,
             data := "audio/x-wma".toList, opt := "wmaversion=3".toList, arch := [] } := by
    decide
  have hcaps : capsString "audio/x-wma".toList "wmaversion=3".toList = wmaCapsText := by decide
  rw [constructor_eq_filterMap]
  simp only [List.filterMap_cons, List.filterMap_nil, parseValue, hq, hcaps, hparse]
  rfl

/-- C10, as stated, fails: `twoDecoderLinesRecord` contains the version line
and, later, the decoder line of the scenario, each after a newline, the
stand-in engine parses the expression text and reports that a value overlaps
with itself, and `matches(record, "")` is false: the value tested is the one
after the first decoder marker of the record, `video/x-h264`. -/
theorem round_trip_counterexample :
    twoDecoderLinesRecord =
        "Package: x\nGstreamer-Decoders: video/x-h264".toList ++ '\n' :: "Gstreamer-Version: 1.0".toList
          ++ [] ++ '\n' :: "Gstreamer-Decoders: audio/x-wma, wmaversion=3".toList ++ ['\n'] ∧
      textAlgebra.gst_caps_from_string wmaCapsText = some wmaCapsText ∧
      textAlgebra.gst_caps_can_intersect wmaCapsText wmaCapsText = true ∧
      (GstMatcher.GstMatcher textAlgebra [wmaQuery]).matches textAlgebra twoDecoderLinesRecord []
        = false := by
  decide

/-- C10 (amended): when the engine parses the expression text of the query to a
value that overlaps with itself, the matcher built from
`gstreamer1.0(decoder-audio/x-wma)(wmaversion=3)` returns true from
`matches(record, "")` for every record that contains, each after a newline, the
line `Gstreamer-Version: 1.0` and later the line
`Gstreamer-Decoders: audio/x-wma, wmaversion=3`, provided the marker
`Gstreamer-Decoders: ` does not occur in the record before that line. -/
theorem round_trip_first_marker {Caps : Type} (alg : CapabilityAlgebra Caps) (c : Caps)
    (before between after record : Str)
    (hparse : alg.gst_caps_from_string wmaCapsText = some c)
    (hoverlap : alg.gst_caps_can_intersect c c = true)
    (hrecord : record = before ++ '\n' :: "Gstreamer-Version: 1.0".toList ++ between ++
      '\n' :: "Gstreamer-Decoders: audio/x-wma, wmaversion=3".toList ++ after)
    (_hbetween : between = [] ∨ ∃ t, between = '\n' :: t)
    (hafter : after = [] ∨ ∃ t, after = '\n' :: t)
    (hfirst : ∀ j < (before ++ '\n' :: "Gstreamer-Version: 1.0".toList ++ between ++ ['\n']).length,
      ¬ "Gstreamer-Decoders: ".toList <+: record.drop j) :
    (GstMatcher.GstMatcher alg [wmaQuery]).matches alg record [] = true := by
  unfold GstMatcher.matches
  rw [constructor_wmaQuery alg c hparse, matchesLoop_single]
  have hver : (find record "\nGstreamer-Version: 1".toList 0).isSome := by
    apply find_isSome_of_infix
    refine ⟨before, ".0".toList ++ between ++
      '\n' :: "Gstreamer-Decoders: audio/x-wma, wmaversion=3".toList ++ after, ?_⟩
    rw [hrecord]
    simp
  obtain ⟨pv, hpv⟩ := Option.isSome_iff_exists.1 hver
  obtain ⟨start, hstart⟩ : ∃ start : Str,
      start = before ++ '\n' :: "Gstreamer-Version: 1.0".toList ++ between ++ ['\n'] := ⟨_, rfl⟩
  rw [← hstart] at hfirst
  have hsplit : record = start ++ ("Gstreamer-Decoders: ".toList ++ (wmaCapsText ++ after)) := by
    rw [hrecord, hstart]
    simp [wmaCapsText]
  have hkind : find record "Gstreamer-Decoders: ".toList 0 = some start.length := by
    rw [find_eq_some_iff]
    refine ⟨_, (Nat.zero_add _).symm, ?_, ?_, ?_⟩
    · rw [hsplit]
      simp only [List.length_append]
      omega
    · refine ⟨wmaCapsText ++ after, ?_⟩
      rw [Nat.zero_add, hsplit, List.drop_left]
    · intro j hj
      rw [Nat.zero_add]
      exact hfirst j hj
  have hfound : start.length + (wmaMatch c).type.length =
      (start ++ "Gstreamer-Decoders: ".toList).length := by
    simp [wmaMatch]
  have hvalue := recordValue_line (start ++ "Gstreamer-Decoders: ".toList) wmaCapsText after
    (by decide) hafter
  rw [List.append_assoc, ← hsplit] at hvalue
  have hcstr : c_str wmaCapsText = wmaCapsText := by decide
  unfold matchesBody
  have hv : (wmaMatch c).version = "\nGstreamer-Version: 1".toList := rfl
  have ht : (wmaMatch c).type = "Gstreamer-Decoders: ".toList := rfl
  have ha : (wmaMatch c).arch = [] := rfl
  have hc : (wmaMatch c).caps = c := rfl
  rw [hv, hpv]
  simp only [ha, ne_eq, not_true_eq_false, false_and, if_false]
  rw [ht, hkind]
  simp only
  rw [← ht, hfound, hvalue, hcstr, hparse]
  simp only [hc, hoverlap]

/-- Witness for C10 (amended): `roundTripRecord`, whose first decoder marker is
the line of the scenario. -/
theorem round_trip_first_marker_witness :
    (GstMatcher.GstMatcher textAlgebra [wmaQuery]).matches textAlgebra roundTripRecord [] = true := by
  have hfind : find roundTripRecord "Gstreamer-Decoders: ".toList 0 = some 58 := by decide
  obtain ⟨k, hk, -, -, hfirst⟩ := (find_eq_some_iff _ _ _ _).1 hfind
  have hk58 : k = 58 := by omega
  subst hk58
  exact round_trip_first_marker textAlgebra wmaCapsText "Package: x".toList
    "\nGstreamer-Elements: foo".toList "\nSize: 1\n".toList roundTripRecord (by decide)
    (by decide) (by decide) (Or.inr ⟨_, rfl⟩) (Or.inr ⟨_, rfl⟩)
    (fun j hj => by
      have := hfirst j (by simpa using hj)
      simpa using this)


/-! ## The fields of an accepted query -/

theorem queryFields_eq_some (value : Str) (f : QueryFields) (h : queryFields value = some f) :
    ∃ ver dot kind data rest : Str,
      value = "gstreamer".toList ++ ver ++ dot ++ '(' :: kind ++ '-' :: data ++ ')' :: rest ∧
      GrammarPieces ver dot kind data ∧
      f = { version := "\nGstreamer-Version: ".toList ++ ver, type := typeMarker kind,
            data := data, opt := (optArchOf rest).1, arch := (optArchOf rest).2 } := by
  have hg : MatchesGrammar value := (queryFields_isSome_iff value).1 (by rw [h]; rfl)
  obtain ⟨ver, dot, kind, data, rest, rfl, hp⟩ := hg
  rw [queryFields_of_grammar ver dot kind data rest hp] at h
  simp only [Option.some.injEq] at h
  exact ⟨ver, dot, kind, data, rest, rfl, hp, h.symm⟩

theorem parseValue_eq_some {Caps : Type} (alg : CapabilityAlgebra Caps) (value : Str)
    (m : Match Caps) (h : parseValue alg value = some m) :
    ∃ f, queryFields value = some f ∧
      alg.gst_caps_from_string (capsString f.data f.opt) = some m.caps ∧
      m.version = f.version ∧ m.type = f.type ∧ m.data = f.data ∧ m.opt = f.opt ∧
      m.arch = f.arch := by
  unfold parseValue at h
  cases hq : queryFields value with
  | none => rw [hq] at h; cases h
  | some f =>
    rw [hq] at h
    simp only at h
    cases hc : alg.gst_caps_from_string (capsString f.data f.opt) with
    | none => rw [hc] at h; cases h
    | some caps =>
      rw [hc] at h
      simp only [Option.some.injEq] at h
      subst h
      exact ⟨f, rfl, hc, rfl, rfl, rfl, rfl, rfl⟩

/-- C11, as stated, fails: in the round-trip query the text between `gstreamer`
and the first `(` is `1.0`, and the stored version tag is
`\nGstreamer-Version: 1`: only group 1 of the pattern is appended, the optional
`.0` is group 2. -/
theorem version_tag_counterexample :
    wmaQuery = "gstreamer".toList ++ "1.0".toList ++ '(' :: "decoder-audio/x-wma)(wmaversion=3)".toList ∧
      '(' ∉ "1.0".toList ∧
      (parseValue textAlgebra wmaQuery).map (fun m => m.version) =
        some "\nGstreamer-Version: 1".toList ∧
      "\nGstreamer-Version: 1".toList ≠ "\nGstreamer-Version: ".toList ++ "1.0".toList := by
  decide

/-- C11 (amended): for every accepted raw query the stored version tag is
`\nGstreamer-Version: ` followed by the version the pattern's first group
matched, `1` or `0.10` (any character for the dot); a `.0` between that version
and the `(` is not part of the tag. -/
theorem version_tag_is_first_group {Caps : Type} (alg : CapabilityAlgebra Caps) (value : Str)
    (m : Match Caps) (h : parseValue alg value = some m) :
    ∃ ver dot tail : Str,
      value = "gstreamer".toList ++ ver ++ dot ++ '(' :: tail ∧
      (ver = ['1'] ∨ ∃ c, ver = ['0', c, '1', '0']) ∧ (dot = [] ∨ dot = ".0".toList) ∧
      m.version = "\nGstreamer-Version: ".toList ++ ver := by
  obtain ⟨f, hf, -, hv, -, -, -, -⟩ := parseValue_eq_some alg value m h
  obtain ⟨ver, dot, kind, data, rest, rfl, hp, rfl⟩ := queryFields_eq_some value f hf
  refine ⟨ver, dot, kind ++ '-' :: data ++ ')' :: rest, ?_, hp.1, hp.2.1, hv⟩
  simp

/-- Witness for C11 (amended): the round-trip query, whose tag ends in `1`. -/
theorem version_tag_is_first_group_witness :
    ∃ ver dot tail : Str,
      wmaQuery = "gstreamer".toList ++ ver ++ dot ++ '(' :: tail ∧
      (ver = ['1'] ∨ ∃ c, ver = ['0', c, '1', '0']) ∧ (dot = [] ∨ dot = ".0".toList) ∧
      (wmaMatch wmaCapsText).version = "\nGstreamer-Version: ".toList ++ ver :=
  version_tag_is_first_group textAlgebra wmaQuery (wmaMatch wmaCapsText) (by decide)

/-- C13: for every stored query the kind marker is the image of the kind token
of the raw query under encoder -> `Gstreamer-Encoders: `, decoder ->
`Gstreamer-Decoders: `, urisource -> `Gstreamer-Uri-Sources: `, urisink ->
`Gstreamer-Uri-Sinks: `, element -> `Gstreamer-Elements: `; it is never one of
the raw tokens. -/
theorem kind_marker_mapping {Caps : Type} (alg : CapabilityAlgebra Caps) (value : Str)
    (m : Match Caps) (h : parseValue alg value = some m) :
    (∃ ver dot kind data rest : Str,
      value = "gstreamer".toList ++ ver ++ dot ++ '(' :: kind ++ '-' :: data ++ ')' :: rest ∧
      GrammarPieces ver dot kind data ∧
      ((kind = "encoder".toList ∧ m.type = "Gstreamer-Encoders: ".toList) ∨
       (kind = "decoder".toList ∧ m.type = "Gstreamer-Decoders: ".toList) ∨
       (kind = "urisource".toList ∧ m.type = "Gstreamer-Uri-Sources: ".toList) ∨
       (kind = "urisink".toList ∧ m.type = "Gstreamer-Uri-Sinks: ".toList) ∨
       (kind = "element".toList ∧ m.type = "Gstreamer-Elements: ".toList))) ∧
      m.type ∈ ["Gstreamer-Encoders: ".toList, "Gstreamer-Decoders: ".toList,
        "Gstreamer-Uri-Sources: ".toList, "Gstreamer-Uri-Sinks: ".toList,
        "Gstreamer-Elements: ".toList] ∧
      m.type ∉ kindTokens := by
  obtain ⟨f, hf, -, -, ht, -, -, -⟩ := parseValue_eq_some alg value m h
  obtain ⟨ver, dot, kind, data, rest, rfl, hp, rfl⟩ := queryFields_eq_some value f hf
  have hk := hp.2.2.1
  simp only at ht
  have hcases : (kind = "encoder".toList ∧ m.type = "Gstreamer-Encoders: ".toList) ∨
       (kind = "decoder".toList ∧ m.type = "Gstreamer-Decoders: ".toList) ∨
       (kind = "urisource".toList ∧ m.type = "Gstreamer-Uri-Sources: ".toList) ∨
       (kind = "urisink".toList ∧ m.type = "Gstreamer-Uri-Sinks: ".toList) ∨
       (kind = "element".toList ∧ m.type = "Gstreamer-Elements: ".toList) := by
    simp only [kindTokens, List.mem_cons, List.mem_singleton, List.not_mem_nil, or_false] at hk
    rcases hk with rfl | rfl | rfl | rfl | rfl
    · exact Or.inl ⟨rfl, ht.trans (by decide)⟩
    · exact Or.inr (Or.inl ⟨rfl, ht.trans (by decide)⟩)
    · exact Or.inr (Or.inr (Or.inl ⟨rfl, ht.trans (by decide)⟩))
    · exact Or.inr (Or.inr (Or.inr (Or.inl ⟨rfl, ht.trans (by decide)⟩)))
    · exact Or.inr (Or.inr (Or.inr (Or.inr ⟨rfl, ht.trans (by decide)⟩)))
  refine ⟨⟨ver, dot, kind, data, rest, rfl, hp, hcases⟩, ?_, ?_⟩
  · rcases hcases with ⟨-, h1⟩ | ⟨-, h1⟩ | ⟨-, h1⟩ | ⟨-, h1⟩ | ⟨-, h1⟩ <;> rw [h1] <;> decide
  · rcases hcases with ⟨-, h1⟩ | ⟨-, h1⟩ | ⟨-, h1⟩ | ⟨-, h1⟩ | ⟨-, h1⟩ <;> rw [h1] <;> decide

/-- Witness for C13: the round-trip query is a decoder query. -/
theorem kind_marker_mapping_witness :
    (wmaMatch wmaCapsText).type ∈ ["Gstreamer-Encoders: ".toList, "Gstreamer-Decoders: ".toList,
        "Gstreamer-Uri-Sources: ".toList, "Gstreamer-Uri-Sinks: ".toList,
        "Gstreamer-Elements: ".toList] ∧
      (wmaMatch wmaCapsText).type ∉ kindTokens :=
  (kind_marker_mapping textAlgebra wmaQuery (wmaMatch wmaCapsText) (by decide)).2

/-! ## The separator loop against the replace-all of the specification -/

theorem replaceRef_eq_replaceAllRef (n : Nat) (s : Str) (hn : s.length ≤ n)
    (h : ¬ [')', '('] <:+ s) : replaceRef s = replaceAllRef s := by
  induction n generalizing s with
  | zero =>
    have : s = [] := List.eq_nil_of_length_eq_zero (by omega)
    subst this
    rfl
  | succ n ih =>
    match s, hn, h with
    | [], _, _ => rfl
    | [c], _, _ => rfl
    | c :: d :: rest, hn, h =>
      have hlen : rest.length ≤ n := by
        simp only [List.length_cons] at hn; omega
      have hlen2 : (d :: rest).length ≤ n := by
        simp only [List.length_cons] at hn ⊢; omega
      rw [replaceRef, replaceAllRef]
      by_cases hcd : c = ')' ∧ d = '('
      · rw [if_pos hcd, if_pos hcd]
        obtain ⟨rfl, rfl⟩ := hcd
        have hrest : rest ≠ [] := by
          rintro rfl
          exact h (List.suffix_refl _)
        rw [if_neg hrest]
        have h2 : ¬ [')', '('] <:+ rest := fun hs =>
          h (hs.trans ((List.suffix_cons _ _).trans (List.suffix_cons _ _)))
        rw [ih rest hlen h2]
      · rw [if_neg hcd, if_neg hcd]
        have h2 : ¬ [')', '('] <:+ d :: rest := fun hs => h (hs.trans (List.suffix_cons _ _))
        rw [ih (d :: rest) hlen2 h2]

theorem replaceRef_of_no_sep (s : Str) (h : ¬ [')', '('] <:+: s) : replaceRef s = s := by
  have h1 := replaceRef_append_of_first s [] (by
    intro j _ hpre
    apply h
    obtain ⟨t, ht⟩ := hpre
    refine ⟨(s ++ []).take j, t, ?_⟩
    rw [List.append_assoc]
    have : ")(".toList = [')', '('] := rfl
    rw [← this, ht, List.take_append_drop, List.append_nil])
  simpa [replaceRef] using h1

theorem replaceAllRef_of_no_sep (s : Str) (h : ¬ [')', '('] <:+: s) : replaceAllRef s = s := by
  have hsuf : ¬ [')', '('] <:+ s := fun hs => h hs.isInfix
  rw [← replaceRef_eq_replaceAllRef s.length s (Nat.le_refl _) hsuf]
  exact replaceRef_of_no_sep s h

/-- C12: when the options text, after removal of a `)(64bit` suffix if there is
one, does not end in `)(`, the constraints are that text with every `)(`, taken
left to right without overlap, replaced by `,`; and when that text contains no
`)(` the constraints are the text itself. -/
theorem separators_replace_all (raw : Str) :
    (∀ body, raw = body ++ ")(64bit".toList → ¬ [')', '('] <:+ body →
        (normalizeOpt raw).1 = replaceAllRef body) ∧
      (¬ ")(64bit".toList <:+ raw → ¬ [')', '('] <:+ raw →
        (normalizeOpt raw).1 = replaceAllRef raw) ∧
      (∀ body, raw = body ++ ")(64bit".toList → ¬ [')', '('] <:+: body →
        (normalizeOpt raw).1 = body) ∧
      (¬ ")(64bit".toList <:+ raw → ¬ [')', '('] <:+: raw → (normalizeOpt raw).1 = raw) := by
  refine ⟨?_, ?_, ?_, ?_⟩
  · rintro body rfl hend
    rw [normalizeOpt_of_marker, replaceSeparators_eq_replaceRef]
    exact replaceRef_eq_replaceAllRef body.length body (Nat.le_refl _) hend
  · intro hno hend
    rw [normalizeOpt_of_no_marker raw hno, replaceSeparators_eq_replaceRef]
    exact replaceRef_eq_replaceAllRef raw.length raw (Nat.le_refl _) hend
  · rintro body rfl hnone
    rw [normalizeOpt_of_marker, replaceSeparators_eq_replaceRef]
    exact replaceRef_of_no_sep body hnone
  · intro hno hnone
    rw [normalizeOpt_of_no_marker raw hno, replaceSeparators_eq_replaceRef]
    exact replaceRef_of_no_sep raw hnone

/-- Witness for C12: `a)(b)(c`, with and without the 64-bit marker, and a text
without separators. -/
theorem separators_replace_all_witness :
    (normalizeOpt "a)(b)(c)(64bit".toList).1 = replaceAllRef "a)(b)(c".toList ∧
      replaceAllRef "a)(b)(c".toList = "a,b,c".toList ∧
      (normalizeOpt "wmaversion=3".toList).1 = "wmaversion=3".toList :=
  ⟨(separators_replace_all "a)(b)(c)(64bit".toList).1 "a)(b)(c".toList rfl (by decide),
    by decide,
    (separators_replace_all "wmaversion=3".toList).2.2.2 (by decide) (by decide)⟩

theorem replaceRef_length_le (n : Nat) (s : Str) (hn : s.length ≤ n) :
    (replaceRef s).length ≤ s.length := by
  induction n generalizing s with
  | zero =>
    have : s = [] := List.eq_nil_of_length_eq_zero (by omega)
    subst this
    simp [replaceRef]
  | succ n ih =>
    match s, hn with
    | [], _ => simp [replaceRef]
    | [c], _ => simp [replaceRef]
    | c :: d :: rest, hn =>
      have hlen : rest.length ≤ n := by
        simp only [List.length_cons] at hn; omega
      have hlen2 : (d :: rest).length ≤ n := by
        simp only [List.length_cons] at hn ⊢; omega
      rw [replaceRef]
      by_cases hcd : c = ')' ∧ d = '('
      · rw [if_pos hcd]
        by_cases hr : rest = []
        · rw [if_pos hr]; simp
        · rw [if_neg hr]
          have := ih rest hlen
          simp only [List.length_cons]
          omega
      · rw [if_neg hcd]
        have := ih (d :: rest) hlen2
        simp only [List.length_cons] at this ⊢
        omega

/-- The output of the pass holds no `)(`, and starts with `(` only when the
input does. -/
theorem replaceRef_no_sep (n : Nat) (s : Str) (hn : s.length ≤ n) :
    ¬ [')', '('] <:+: replaceRef s ∧ ∀ t, replaceRef s = '(' :: t → ∃ u, s = '(' :: u := by
  induction n generalizing s with
  | zero =>
    have : s = [] := List.eq_nil_of_length_eq_zero (by omega)
    subst this
    simp [replaceRef]
  | succ n ih =>
    match s, hn with
    | [], _ => simp [replaceRef]
    | [c], _ =>
      refine ⟨?_, ?_⟩
      · rintro ⟨a, b, hab⟩
        have := congrArg List.length hab
        simp [replaceRef] at this
        omega
      · intro t ht
        simp only [replaceRef, List.cons.injEq] at ht
        exact ⟨[], by rw [ht.1]⟩
    | c :: d :: rest, hn =>
      have hlen : rest.length ≤ n := by
        simp only [List.length_cons] at hn; omega
      have hlen2 : (d :: rest).length ≤ n := by
        simp only [List.length_cons] at hn ⊢; omega
      rw [replaceRef]
      by_cases hcd : c = ')' ∧ d = '('
      · rw [if_pos hcd]
        by_cases hr : rest = []
        · rw [if_pos hr]; simp
        · rw [if_neg hr]
          refine ⟨?_, ?_⟩
          · rw [List.infix_cons_iff]
            rintro (hpre | hin)
            · obtain ⟨t, ht⟩ := hpre
              simp only [List.cons_append, List.cons.injEq] at ht
              exact absurd ht.1 (by decide)
            · exact (ih rest hlen).1 hin
          · intro t ht
            simp only [List.cons.injEq] at ht
            exact absurd ht.1 (by decide)
      · rw [if_neg hcd]
        refine ⟨?_, ?_⟩
        · rw [List.infix_cons_iff]
          rintro (hpre | hin)
          · obtain ⟨t, ht⟩ := hpre
            simp only [List.cons_append, List.nil_append, List.cons.injEq] at ht
            obtain ⟨u, hu⟩ := (ih (d :: rest) hlen2).2 t ht.2.symm
            simp only [List.cons.injEq] at hu
            exact hcd ⟨ht.1.symm, hu.1⟩
          · exact (ih (d :: rest) hlen2).1 hin
        · intro t ht
          simp only [List.cons.injEq] at ht
          exact ⟨d :: rest, by rw [ht.1]⟩

theorem normalizeOpt_eq_replaceRef (raw : Str) :
    ∃ t : Str, (normalizeOpt raw).1 = replaceRef t ∧ t.length ≤ raw.length := by
  by_cases h : ")(64bit".toList <:+ raw
  · obtain ⟨body, rfl⟩ := h
    exact ⟨body, by rw [normalizeOpt_of_marker, replaceSeparators_eq_replaceRef], by simp⟩
  · exact ⟨raw, by rw [normalizeOpt_of_no_marker raw h, replaceSeparators_eq_replaceRef],
      Nat.le_refl _⟩

/-- C18: for every raw options text the constraints hold no `)(` and are no
longer than the raw text, and the normalization applied to the constraints
returns them unchanged, with no architecture hint. -/
theorem constraints_normal_form (raw : Str) :
    ¬ [')', '('] <:+: (normalizeOpt raw).1 ∧
      (normalizeOpt raw).1.length ≤ raw.length ∧
      normalizeOpt (normalizeOpt raw).1 = ((normalizeOpt raw).1, []) := by
  obtain ⟨t, ht, hlen⟩ := normalizeOpt_eq_replaceRef raw
  have hno : ¬ [')', '('] <:+: (normalizeOpt raw).1 := by
    rw [ht]
    exact (replaceRef_no_sep t.length t (Nat.le_refl _)).1
  refine ⟨hno, ?_, ?_⟩
  · rw [ht]
    exact (replaceRef_length_le t.length t (Nat.le_refl _)).trans hlen
  · have hmarker : ¬ ")(64bit".toList <:+ (normalizeOpt raw).1 := by
      rintro ⟨body, hb⟩
      apply hno
      refine ⟨body, "64bit".toList, ?_⟩
      rw [← hb]
      simp
    rw [normalizeOpt_of_no_marker _ hmarker, replaceSeparators_eq_replaceRef,
      replaceRef_of_no_sep _ hno]

/-! ## The engine calls of `matches` -/

theorem matchesBodyCalls_fst {Caps : Type} (alg : CapabilityAlgebra Caps) (record arch : Str)
    (position : Nat) (m : Match Caps) :
    (matchesBodyCalls alg record arch position m).1 = matchesBody alg record arch m := by
  unfold matchesBodyCalls matchesBody
  cases find record m.version 0 with
  | none => rfl
  | some p =>
    by_cases ha : m.arch ≠ [] ∧ arch ≠ m.arch
    · simp only [if_pos ha]
    · simp only [if_neg ha]
      cases find record m.type 0 with
      | none => rfl
      | some found0 =>
        simp only
        cases alg.gst_caps_from_string
          (c_str (recordValue record (found0 + m.type.length)
            (findChar record '\n' (found0 + m.type.length)))) with
        | none => rfl
        | some caps => rfl

theorem matchesLoopCalls_fst {Caps : Type} (alg : CapabilityAlgebra Caps) (record arch : Str)
    (position : Nat) (qs : List (Match Caps)) :
    (matchesLoopCalls alg record arch position qs).1 = matchesLoop alg record arch qs := by
  induction qs generalizing position with
  | nil => rfl
  | cons m rest ih =>
    unfold matchesLoopCalls matchesLoop
    rw [matchesBodyCalls_fst]
    by_cases hb : matchesBody alg record arch m = true
    · simp only [hb, if_true]
    · simp only [hb, if_false, Bool.false_eq_true]
      exact ih (position + 1)

/-- The instrumented `matches` returns what `matches` returns. -/
theorem matchesCalls_fst {Caps : Type} (alg : CapabilityAlgebra Caps) (self : GstMatcher Caps)
    (record arch : Str) :
    (self.matchesCalls alg record arch).1 = self.matches alg record arch :=
  matchesLoopCalls_fst alg record arch 0 self.m_matches

theorem matchesBody_eq_extractedText {Caps : Type} (alg : CapabilityAlgebra Caps)
    (record arch : Str) (m : Match Caps) :
    matchesBody alg record arch m =
      match extractedText record arch m with
      | none => false
      | some text =>
        match alg.gst_caps_from_string text with
        | none => false
        | some caps => alg.gst_caps_can_intersect m.caps caps := by
  unfold matchesBody extractedText
  cases find record m.version 0 with
  | none => rfl
  | some p =>
    by_cases ha : m.arch ≠ [] ∧ arch ≠ m.arch
    · simp only [if_pos ha]
    · simp only [if_neg ha]
      cases find record m.type 0 with
      | none => rfl
      | some found0 => rfl

theorem matchesBodyCalls_snd {Caps : Type} (alg : CapabilityAlgebra Caps) (record arch : Str)
    (position : Nat) (m : Match Caps) :
    (matchesBodyCalls alg record arch position m).2 =
      match extractedText record arch m with
      | none => []
      | some text =>
        match alg.gst_caps_from_string text with
        | none => [EngineCall.parse position text]
        | some _ => [EngineCall.parse position text, EngineCall.intersect position] := by
  unfold matchesBodyCalls extractedText
  cases find record m.version 0 with
  | none => rfl
  | some p =>
    by_cases ha : m.arch ≠ [] ∧ arch ≠ m.arch
    · simp only [if_pos ha]
    · simp only [if_neg ha]
      cases find record m.type 0 with
      | none => rfl
      | some found0 =>
        simp only
        cases alg.gst_caps_from_string
          (c_str (recordValue record (found0 + m.type.length)
            (findChar record '\n' (found0 + m.type.length)))) with
        | none => rfl
        | some caps => rfl

theorem matchesBodyCalls_position {Caps : Type} (alg : CapabilityAlgebra Caps)
    (record arch : Str) (position : Nat) (m : Match Caps) :
    (∀ c ∈ (matchesBodyCalls alg record arch position m).2, c.position = position) ∧
      ((matchesBodyCalls alg record arch position m).2.filter EngineCall.isIntersect).length ≤ 1 := by
  rw [matchesBodyCalls_snd]
  split
  · simp
  · split <;> simp [EngineCall.position, EngineCall.isIntersect]

theorem matchesLoopCalls_cons {Caps : Type} (alg : CapabilityAlgebra Caps) (record arch : Str)
    (position : Nat) (m : Match Caps) (rest : List (Match Caps)) :
    matchesLoopCalls alg record arch position (m :: rest) =
      if (matchesBodyCalls alg record arch position m).1 then
        (true, (matchesBodyCalls alg record arch position m).2)
      else
        ((matchesLoopCalls alg record arch (position + 1) rest).1,
          (matchesBodyCalls alg record arch position m).2 ++
            (matchesLoopCalls alg record arch (position + 1) rest).2) := by
  rw [matchesLoopCalls]

theorem matchesLoopCalls_first_match {Caps : Type} (alg : CapabilityAlgebra Caps)
    (record arch : Str) (before : List (Match Caps)) (q : Match Caps) (after : List (Match Caps))
    (position : Nat) (hfirst : ∀ m ∈ before, matchesBody alg record arch m = false)
    (hsat : matchesBody alg record arch q = true) :
    matchesLoopCalls alg record arch position (before ++ q :: after) =
        matchesLoopCalls alg record arch position (before ++ [q]) ∧
      (matchesLoopCalls alg record arch position (before ++ q :: after)).1 = true ∧
      (∀ c ∈ (matchesLoopCalls alg record arch position (before ++ q :: after)).2,
        position ≤ c.position ∧ c.position ≤ position + before.length) ∧
      ((matchesLoopCalls alg record arch position (before ++ q :: after)).2.filter
        EngineCall.isIntersect).length ≤ before.length + 1 := by
  induction before generalizing position with
  | nil =>
    have hq : (matchesBodyCalls alg record arch position q).1 = true := by
      rw [matchesBodyCalls_fst]; exact hsat
    have hpos := matchesBodyCalls_position alg record arch position q
    rw [List.nil_append, List.nil_append, matchesLoopCalls_cons, matchesLoopCalls_cons]
    simp only [hq, if_true, List.length_nil, Nat.add_zero, Nat.zero_add, true_and]
    refine ⟨?_, hpos.2⟩
    intro c hc
    have := hpos.1 c hc
    omega
  | cons m before ih =>
    have hm : (matchesBodyCalls alg record arch position m).1 = false := by
      rw [matchesBodyCalls_fst]; exact hfirst m (by simp)
    have hpos := matchesBodyCalls_position alg record arch position m
    obtain ⟨h1, h2, h3, h4⟩ := ih (position + 1) (fun x hx => hfirst x (by simp [hx]))
    rw [List.cons_append, List.cons_append, matchesLoopCalls_cons, matchesLoopCalls_cons]
    simp only [hm, if_false, Bool.false_eq_true]
    refine ⟨by rw [h1], h2, ?_, ?_⟩
    · intro c hc
      rw [List.mem_append] at hc
      rcases hc with hc | hc
      · have := hpos.1 c hc
        simp only [List.length_cons]
        omega
      · have := h3 c hc
        simp only [List.length_cons]
        omega
    · rw [List.filter_append, List.length_append]
      simp only [List.length_cons]
      have := hpos.2
      omega

/-- C14: when the query at position `before.length` is the first one the record
satisfies, `matches` returns true, every engine call it has made is for a
query at a position up to that one, the overlap predicate has been called at
most `before.length + 1` times, and the calls are those made when nothing at
all is stored after that query. -/
theorem short_circuit_first_match {Caps : Type} (alg : CapabilityAlgebra Caps)
    (record arch : Str) (before : List (Match Caps)) (q : Match Caps) (after : List (Match Caps))
    (hfirst : ∀ m ∈ before, (GstMatcher.mk [m]).matches alg record arch = false)
    (hsat : (GstMatcher.mk [q]).matches alg record arch = true) :
    (GstMatcher.mk (before ++ q :: after)).matches alg record arch = true ∧
      (∀ c ∈ ((GstMatcher.mk (before ++ q :: after)).matchesCalls alg record arch).2,
        c.position ≤ before.length) ∧
      (((GstMatcher.mk (before ++ q :: after)).matchesCalls alg record arch).2.filter
        EngineCall.isIntersect).length ≤ before.length + 1 ∧
      (GstMatcher.mk (before ++ q :: after)).matchesCalls alg record arch =
        (GstMatcher.mk (before ++ [q])).matchesCalls alg record arch := by
  have hfirst1 : ∀ m ∈ before, matchesBody alg record arch m = false := by
    intro m hm
    have := hfirst m hm
    rwa [GstMatcher.matches, matchesLoop_single] at this
  have hsat1 : matchesBody alg record arch q = true := by
    rwa [GstMatcher.matches, matchesLoop_single] at hsat
  obtain ⟨h1, h2, h3, h4⟩ :=
    matchesLoopCalls_first_match alg record arch before q after 0 hfirst1 hsat1
  refine ⟨?_, ?_, h4, h1⟩
  · rw [← matchesCalls_fst]
    exact h2
  · intro c hc
    have := (h3 c hc).2
    omega

/-- Witness for C14: the 64-bit descriptor is stopped by the architecture gate
for `i386`, the next descriptor matches, and the third is never examined. -/
theorem short_circuit_first_match_witness :
    (GstMatcher.mk ([wmaDecoder64] ++ wmaDecoder :: [wmaDecoder])).matches textAlgebra wmaRecord
        "i386".toList = true ∧
      ((GstMatcher.mk ([wmaDecoder64] ++ wmaDecoder :: [wmaDecoder])).matchesCalls textAlgebra
        wmaRecord "i386".toList).2 =
        [EngineCall.parse 1 "audio/x-wma".toList, EngineCall.intersect 1] :=
  ⟨(short_circuit_first_match textAlgebra wmaRecord "i386".toList [wmaDecoder64] wmaDecoder
      [wmaDecoder] (by decide) (by decide)).1, by decide⟩

/-! ## The value taken from the record -/

theorem notNewline_takeWhile (s : Str) : '\n' ∉ s.takeWhile (fun c => c != '\n') := by
  intro h
  have := List.mem_takeWhile_imp h
  simp at this

theorem dropWhile_notNewline (s : Str) :
    s.dropWhile (fun c => c != '\n') = [] ∨
      ∃ t, s.dropWhile (fun c => c != '\n') = '\n' :: t := by
  cases h : s.dropWhile (fun c => c != '\n') with
  | nil => exact Or.inl rfl
  | cons x t =>
    right
    have := List.head_dropWhile_not (fun c => c != '\n') s (by rw [h]; simp)
    simp only [h, List.head_cons, bne_iff_ne, ne_eq, Bool.not_eq_true, Bool.not_eq_false,
      not_not, Bool.not_eq_true', bne_eq_false_iff_eq] at this
    exact ⟨t, by rw [this]⟩

/-- The value runs from `found` to just before the next newline, or to the end
of the record. -/
theorem recordValue_eq_takeWhile (record : Str) (found : Nat) (h : found ≤ record.length) :
    recordValue record found (findChar record '\n' found) =
      (record.drop found).takeWhile (fun c => c != '\n') := by
  have hrec : record = record.take found ++
      ((record.drop found).takeWhile (fun c => c != '\n') ++
        (record.drop found).dropWhile (fun c => c != '\n')) := by
    rw [List.takeWhile_append_dropWhile, List.take_append_drop]
  have hlen : (record.take found).length = found := by
    rw [List.length_take]; omega
  have := recordValue_line (record.take found)
    ((record.drop found).takeWhile (fun c => c != '\n'))
    ((record.drop found).dropWhile (fun c => c != '\n'))
    (notNewline_takeWhile _) (dropWhile_notNewline _)
  rw [← hrec, hlen] at this
  exact this

theorem c_str_front (s : Str) : c_str s <+: s := by
  unfold c_str
  exact List.takeWhile_prefix _

theorem c_str_of_no_nul (s : Str) (h : Char.ofNat 0 ∉ s) : c_str s = s := by
  unfold c_str
  rw [List.takeWhile_eq_self_iff]
  intro c hc
  have : c ≠ Char.ofNat 0 := fun e => h (e ▸ hc)
  simpa using this

theorem find_some_bounds (s pat : Str) (pos p : Nat) (h : find s pat pos = some p) :
    pos ≤ p ∧ p + pat.length ≤ s.length ∧ pat <+: s.drop p := by
  obtain ⟨k, rfl, hk, hpre, -⟩ := (find_eq_some_iff s pat pos p).1 h
  refine ⟨by omega, ?_, hpre⟩
  obtain ⟨t, ht⟩ := hpre
  have := congrArg List.length ht
  rw [List.length_append, List.length_drop] at this
  omega

/-- C15, as stated, fails: in `nulRecord` the substring after the decoder marker,
up to the next newline, is `a`, NUL, `b`, and the text the engine is asked to
parse is `a`: the substring is passed through `c_str()`, as a C string. -/
theorem value_extraction_counterexample :
    nulRecord = "\nGstreamer-Version: 1\n".toList ++ wmaDecoder.type ++
        ['a', Char.ofNat 0, 'b'] ++ "\nSize: 1\n".toList ∧
      '\n' ∉ ['a', Char.ofNat 0, 'b'] ∧
      find nulRecord wmaDecoder.version 0 = some 0 ∧
      find nulRecord wmaDecoder.type 0 = some 22 ∧
      ((GstMatcher.mk [wmaDecoder]).matchesCalls textAlgebra nulRecord []).2 =
        [EngineCall.parse 0 ['a'], EngineCall.intersect 0] := by
  decide

/-- C15 (amended): for every query that passes the gates, the record is the text
up to the located kind marker, the marker, a value free of newlines, and a
rest that is empty or starts with a newline; the text handed to
`gst_caps_from_string` is that value read as a C string, that is, cut at its
first NUL if it has one and the value itself otherwise; it holds no newline;
and the indices used stay inside the record. -/
theorem value_extraction {Caps : Type} (alg : CapabilityAlgebra Caps) (record arch : Str)
    (position : Nat) (m : Match Caps) (p found0 : Nat)
    (hver : find record m.version 0 = some p)
    (harch : ¬ (m.arch ≠ [] ∧ arch ≠ m.arch))
    (hkind : find record m.type 0 = some found0) :
    ∃ value rest : Str,
      record = record.take found0 ++ m.type ++ value ++ rest ∧
      (record.take found0).length = found0 ∧
      '\n' ∉ value ∧ (rest = [] ∨ ∃ t, rest = '\n' :: t) ∧
      extractedText record arch m = some (c_str value) ∧
      (matchesBodyCalls alg record arch position m).2.head? =
        some (EngineCall.parse position (c_str value)) ∧
      c_str value <+: value ∧ (Char.ofNat 0 ∉ value → c_str value = value) ∧
      '\n' ∉ c_str value ∧
      found0 + m.type.length ≤ record.length ∧
      (∀ e, findChar record '\n' (found0 + m.type.length) = some e →
        found0 + m.type.length ≤ e ∧ e < record.length) := by
  obtain ⟨-, hbound, ⟨after, hafter⟩⟩ := find_some_bounds record m.type 0 found0 hkind
  have hvalue := recordValue_eq_takeWhile record (found0 + m.type.length) hbound
  have hdrop : record.drop (found0 + m.type.length) = after := by
    rw [← List.drop_drop, ← hafter, List.drop_left]
  have hext : extractedText record arch m =
      some (c_str (after.takeWhile (fun c => c != '\n'))) := by
    unfold extractedText
    rw [hver]
    simp only [if_neg harch, hkind]
    rw [hvalue, hdrop]
  have hnl := notNewline_takeWhile after
  refine ⟨after.takeWhile (fun c => c != '\n'), after.dropWhile (fun c => c != '\n'),
    ?_, ?_, hnl, dropWhile_notNewline after, hext, ?_, c_str_front _, c_str_of_no_nul _, ?_,
    hbound, ?_⟩
  · rw [List.append_assoc, List.takeWhile_append_dropWhile, List.append_assoc, hafter,
      List.take_append_drop]
  · rw [List.length_take]; omega
  · rw [matchesBodyCalls_snd, hext]
    simp only
    split <;> rfl
  · intro h
    exact hnl ((c_str_front _).subset h)
  · intro e he
    obtain ⟨h1, h2, -⟩ := find_some_bounds record ['\n'] _ e he
    simp only [List.length_singleton] at h2
    exact ⟨h1, by omega⟩

/-- Witness for C15 (amended): the decoder value of `wmaRecord`. -/
theorem value_extraction_witness :
    ∃ value rest : Str,
      wmaRecord = wmaRecord.take 34 ++ wmaDecoder.type ++ value ++ rest ∧
      (wmaRecord.take 34).length = 34 ∧
      '\n' ∉ value ∧ (rest = [] ∨ ∃ t, rest = '\n' :: t) ∧
      extractedText wmaRecord [] wmaDecoder = some (c_str value) ∧
      (matchesBodyCalls textAlgebra wmaRecord [] 0 wmaDecoder).2.head? =
        some (EngineCall.parse 0 (c_str value)) ∧
      c_str value <+: value ∧ (Char.ofNat 0 ∉ value → c_str value = value) ∧
      '\n' ∉ c_str value ∧
      34 + wmaDecoder.type.length ≤ wmaRecord.length ∧
      (∀ e, findChar wmaRecord '\n' (34 + wmaDecoder.type.length) = some e →
        34 + wmaDecoder.type.length ≤ e ∧ e < wmaRecord.length) :=
  value_extraction textAlgebra wmaRecord [] 0 wmaDecoder 10 34 (by decide) (by decide) (by decide)

theorem matchesBody_of_parse_none {Caps : Type} (alg : CapabilityAlgebra Caps)
    (record arch : Str) (m : Match Caps)
    (h : ∀ text, extractedText record arch m = some text → alg.gst_caps_from_string text = none) :
    matchesBody alg record arch m = false := by
  rw [matchesBody_eq_extractedText]
  cases he : extractedText record arch m with
  | none => rfl
  | some text =>
    simp only
    rw [h text he]

/-- C16: a parse failure at match time is a non-match and not an error.  When
the engine rejects the text extracted for a query, `matches` goes on with the
remaining queries after the one parse call, without calling the overlap
predicate for that query; `matches` returns false when every query that passes
the gates has its text rejected; and it still returns true when a later query
is satisfied. -/
theorem parse_failure_is_non_match {Caps : Type} (alg : CapabilityAlgebra Caps)
    (record arch : Str) :
    (∀ (m : Match Caps) (rest : List (Match Caps)) (text : Str) (position : Nat),
        extractedText record arch m = some text → alg.gst_caps_from_string text = none →
        (GstMatcher.mk (m :: rest)).matches alg record arch =
          (GstMatcher.mk rest).matches alg record arch ∧
        matchesLoopCalls alg record arch position (m :: rest) =
          ((matchesLoopCalls alg record arch (position + 1) rest).1,
            EngineCall.parse position text ::
              (matchesLoopCalls alg record arch (position + 1) rest).2)) ∧
      (∀ qs : List (Match Caps),
        (∀ m ∈ qs, ∀ text, extractedText record arch m = some text →
          alg.gst_caps_from_string text = none) →
        (GstMatcher.mk qs).matches alg record arch = false) ∧
      (∀ (before : List (Match Caps)) (m : Match Caps) (between : List (Match Caps))
        (q : Match Caps) (after : List (Match Caps)) (text : Str),
        extractedText record arch m = some text → alg.gst_caps_from_string text = none →
        (GstMatcher.mk [q]).matches alg record arch = true →
        (GstMatcher.mk (before ++ m :: between ++ q :: after)).matches alg record arch = true) := by
  refine ⟨?_, ?_, ?_⟩
  · intro m rest text position he hp
    have hb : matchesBody alg record arch m = false :=
      matchesBody_of_parse_none alg record arch m (fun t ht => by
        rw [he] at ht
        simp only [Option.some.injEq] at ht
        rw [← ht]; exact hp)
    constructor
    · simp only [GstMatcher.matches]
      rw [matchesLoop, hb]
      simp
    · have h1 : (matchesBodyCalls alg record arch position m).1 = false := by
        rw [matchesBodyCalls_fst]; exact hb
      have h2 : (matchesBodyCalls alg record arch position m).2 =
          [EngineCall.parse position text] := by
        rw [matchesBodyCalls_snd, he]
        simp only [hp]
      rw [matchesLoopCalls_cons, h1, h2]
      simp
  · intro qs hall
    cases hm : (GstMatcher.mk qs).matches alg record arch with
    | false => rfl
    | true =>
      obtain ⟨q, hq, hb⟩ := (matchesLoop_eq_true_iff alg record arch qs).1 hm
      rw [matchesBody_of_parse_none alg record arch q (hall q hq)] at hb
      cases hb
  · intro before m between q after text _ _ hq
    rw [GstMatcher.matches, matchesLoop_single] at hq
    exact (matchesLoop_eq_true_iff alg record arch _).2 ⟨q, by simp, hq⟩

/-- Witness for C16: in `badEncoderRecord` the engine rejects the encoder value
`???`; the encoder query alone gives false, and `matches` goes on to the decoder
query, which matches. -/
theorem parse_failure_is_non_match_witness :
    extractedText badEncoderRecord [] wmaEncoder = some "???".toList ∧
      wmaOnlyAlgebra.gst_caps_from_string "???".toList = none ∧
      (GstMatcher.mk [wmaEncoder]).matches wmaOnlyAlgebra badEncoderRecord [] = false ∧
      (GstMatcher.mk ([] ++ wmaEncoder :: [] ++ wmaDecoder :: [])).matches wmaOnlyAlgebra
        badEncoderRecord [] = true ∧
      ((GstMatcher.mk [wmaEncoder, wmaDecoder]).matchesCalls wmaOnlyAlgebra badEncoderRecord []).2 =
        [EngineCall.parse 0 "???".toList, EngineCall.parse 1 "audio/x-wma".toList,
          EngineCall.intersect 1] :=
  have he : extractedText badEncoderRecord [] wmaEncoder = some "???".toList := by decide
  have hp : wmaOnlyAlgebra.gst_caps_from_string "???".toList = none := by decide
  have h := parse_failure_is_non_match wmaOnlyAlgebra badEncoderRecord []
  ⟨he, hp,
    h.2.1 [wmaEncoder] (fun m hm text ht => by
      rw [List.mem_singleton] at hm
      subst hm
      rw [he] at ht
      simp only [Option.some.injEq] at ht
      rw [← ht]; exact hp),
    h.2.2 [] wmaEncoder [] wmaDecoder [] "???".toList he hp (by decide),
    by decide⟩

/-! ## The 64-bit marker and the optional `.0` -/

theorem matchesBody_congr {Caps : Type} (alg : CapabilityAlgebra Caps) (record arch1 arch2 : Str)
    (m1 m2 : Match Caps) (hv : m1.version = m2.version) (ht : m1.type = m2.type)
    (hc : m1.caps = m2.caps) (h1 : ¬ (m1.arch ≠ [] ∧ arch1 ≠ m1.arch))
    (h2 : ¬ (m2.arch ≠ [] ∧ arch2 ≠ m2.arch)) :
    matchesBody alg record arch1 m1 = matchesBody alg record arch2 m2 := by
  unfold matchesBody
  rw [hv, ht, hc]
  simp only [if_neg h1, if_neg h2]

theorem optionsText_closed (inner : Str) : optionsText ('(' :: inner ++ [')']) = some inner := by
  rw [optionsText_eq_some]
  exact ⟨[], rfl, by simp⟩

theorem queryFields_plainQuery (K M O : Str) (hK : K ∈ kindTokens) (hM : M ≠ [])
    (hM2 : ')' ∉ M) (hO : ¬ ")(64bit".toList <:+ O) :
    queryFields (plainQuery K M O) =
      some { version := "\nGstreamer-Version: 1".toList, type := typeMarker K, data := M,
             opt := replaceSeparators O, arch := [] } := by
  have hv : plainQuery K M O = "gstreamer".toList ++ ['1'] ++ ".0".toList ++ '(' :: K ++
      '-' :: M ++ ')' :: ('(' :: O ++ [')']) := by
    simp [plainQuery]
  rw [hv, queryFields_of_grammar ['1'] ".0".toList K M _ ⟨Or.inl rfl, Or.inr rfl, hK, hM, hM2⟩]
  simp only [optArchOf, optionsText_closed, normalizeOpt_of_no_marker O hO]
  rfl

theorem queryFields_markedQuery (K M O : Str) (hK : K ∈ kindTokens) (hM : M ≠ [])
    (hM2 : ')' ∉ M) :
    queryFields (markedQuery K M O) =
      some { version := "\nGstreamer-Version: 1".toList, type := typeMarker K, data := M,
             opt := replaceSeparators O, arch := "amd64".toList } := by
  have hv : markedQuery K M O = "gstreamer".toList ++ ['1'] ++ ".0".toList ++ '(' :: K ++
      '-' :: M ++ ')' :: ('(' :: (O ++ ")(64bit".toList) ++ [')']) := by
    simp [markedQuery]
  rw [hv, queryFields_of_grammar ['1'] ".0".toList K M _ ⟨Or.inl rfl, Or.inr rfl, hK, hM, hM2⟩]
  simp only [optArchOf, optionsText_closed, normalizeOpt_of_marker]
  rfl

/-- C17, as stated, fails for the options text `a)(64bit`: the marked query
`gstreamer1.0(decoder-x)(a)(64bit)(64bit)` stores the constraints `a,64bit`, the
query `gstreamer1.0(decoder-x)(a)(64bit)` stores `a` (its own last group is
taken for the marker), and on `decoderXRecord` with `amd64` the first gives
false and the second true. -/
theorem marker_only_adds_gate_counterexample :
    "decoder".toList ∈ kindTokens ∧
      (queryFields (markedQuery "decoder".toList "x".toList "a)(64bit".toList)).map
        (fun f => f.opt) = some "a,64bit".toList ∧
      (queryFields (plainQuery "decoder".toList "x".toList "a)(64bit".toList)).map
        (fun f => f.opt) = some "a".toList ∧
      (GstMatcher.GstMatcher textAlgebra
        [markedQuery "decoder".toList "x".toList "a)(64bit".toList]).matches textAlgebra
          decoderXRecord "amd64".toList = false ∧
      (GstMatcher.GstMatcher textAlgebra
        [plainQuery "decoder".toList "x".toList "a)(64bit".toList]).matches textAlgebra
          decoderXRecord "amd64".toList = true := by
  decide

/-- C17 (amended): for every kind token K, media token M (non-empty, without
`)`) and options text O that does not itself end in `)(64bit`, the queries
`gstreamer1.0(K-M)(O)(64bit)` and `gstreamer1.0(K-M)(O)` store the same version
tag, kind, media descriptor and constraints, the first with `arch = amd64` and
the second with none, and the first evaluated with `amd64` gives, for every
record, the result of the second evaluated with any arch. -/
theorem marker_only_adds_gate {Caps : Type} (alg : CapabilityAlgebra Caps) (K M O : Str)
    (hK : K ∈ kindTokens) (hM : M ≠ []) (hM2 : ')' ∉ M) (hO : ¬ ")(64bit".toList <:+ O) :
    queryFields (markedQuery K M O) =
        some { version := "\nGstreamer-Version: 1".toList, type := typeMarker K, data := M,
               opt := replaceSeparators O, arch := "amd64".toList } ∧
      queryFields (plainQuery K M O) =
        some { version := "\nGstreamer-Version: 1".toList, type := typeMarker K, data := M,
               opt := replaceSeparators O, arch := [] } ∧
      ∀ record arch : Str,
        (GstMatcher.GstMatcher alg [markedQuery K M O]).matches alg record "amd64".toList =
          (GstMatcher.GstMatcher alg [plainQuery K M O]).matches alg record arch := by
  have h1 := queryFields_markedQuery K M O hK hM hM2
  have h2 := queryFields_plainQuery K M O hK hM hM2 hO
  refine ⟨h1, h2, ?_⟩
  intro record arch
  simp only [GstMatcher.matches, constructor_eq_filterMap, List.filterMap_cons,
    List.filterMap_nil, parseValue, h1, h2]
  cases alg.gst_caps_from_string (capsString M (replaceSeparators O)) with
  | none => rfl
  | some caps =>
    simp only [matchesLoop_single]
    apply matchesBody_congr
    · rfl
    · rfl
    · rfl
    · simp
    · simp

/-- Witness for C17 (amended): the round-trip query with and without the marker. -/
theorem marker_only_adds_gate_witness :
    (GstMatcher.GstMatcher textAlgebra
        [markedQuery "decoder".toList "audio/x-wma".toList "wmaversion=3".toList]).matches
          textAlgebra roundTripRecord "amd64".toList =
      (GstMatcher.GstMatcher textAlgebra
        [plainQuery "decoder".toList "audio/x-wma".toList "wmaversion=3".toList]).matches
          textAlgebra roundTripRecord "i386".toList :=
  (marker_only_adds_gate textAlgebra "decoder".toList "audio/x-wma".toList "wmaversion=3".toList
    (by decide) (by decide) (by decide) (by decide)).2.2 roundTripRecord "i386".toList

theorem grammar_of_short_version (X : Str) (hX : ¬ ".0".toList <+: X)
    (h : MatchesGrammar ("gstreamer1".toList ++ X)) :
    ∃ kind data rest : Str, X = '(' :: kind ++ '-' :: data ++ ')' :: rest ∧
      kind ∈ kindTokens ∧ data ≠ [] ∧ ')' ∉ data := by
  obtain ⟨ver, dot, kind, data, rest, hv, hver, hdot, hk, hd, hd2⟩ := h
  rcases hver with rfl | ⟨c, rfl⟩
  · rcases hdot with rfl | rfl
    · refine ⟨kind, data, rest, ?_, hk, hd, hd2⟩
      simpa using hv
    · exfalso
      apply hX
      refine ⟨'(' :: kind ++ '-' :: data ++ ')' :: rest, ?_⟩
      have : X = ".0".toList ++ ('(' :: kind ++ '-' :: data ++ ')' :: rest) := by
        simpa using hv
      rw [this]
  · simp at hv

theorem grammar_of_long_version (X : Str) (h : MatchesGrammar ("gstreamer1.0".toList ++ X)) :
    ∃ kind data rest : Str, X = '(' :: kind ++ '-' :: data ++ ')' :: rest ∧
      kind ∈ kindTokens ∧ data ≠ [] ∧ ')' ∉ data := by
  obtain ⟨ver, dot, kind, data, rest, hv, hver, hdot, hk, hd, hd2⟩ := h
  rcases hver with rfl | ⟨c, rfl⟩
  · rcases hdot with rfl | rfl
    · simp at hv
    · refine ⟨kind, data, rest, ?_, hk, hd, hd2⟩
      simpa using hv
  · simp at hv

theorem queryFields_optional_dot_zero (X : Str) (hX : ¬ ".0".toList <+: X) :
    queryFields ("gstreamer1".toList ++ X) = queryFields ("gstreamer1.0".toList ++ X) := by
  by_cases hform : ∃ kind data rest : Str, X = '(' :: kind ++ '-' :: data ++ ')' :: rest ∧
      kind ∈ kindTokens ∧ data ≠ [] ∧ ')' ∉ data
  · obtain ⟨kind, data, rest, rfl, hk, hd, hd2⟩ := hform
    have h1 : "gstreamer1".toList ++ ('(' :: kind ++ '-' :: data ++ ')' :: rest) =
        "gstreamer".toList ++ ['1'] ++ [] ++ '(' :: kind ++ '-' :: data ++ ')' :: rest := by
      simp
    have h2 : "gstreamer1.0".toList ++ ('(' :: kind ++ '-' :: data ++ ')' :: rest) =
        "gstreamer".toList ++ ['1'] ++ ".0".toList ++ '(' :: kind ++ '-' :: data ++ ')' :: rest := by
      simp
    rw [h1, h2, queryFields_of_grammar ['1'] [] kind data rest ⟨Or.inl rfl, Or.inl rfl, hk, hd, hd2⟩,
      queryFields_of_grammar ['1'] ".0".toList kind data rest
        ⟨Or.inl rfl, Or.inr rfl, hk, hd, hd2⟩]
  · have n1 : queryFields ("gstreamer1".toList ++ X) = none := by
      cases hq : queryFields ("gstreamer1".toList ++ X) with
      | none => rfl
      | some f =>
        exact absurd (grammar_of_short_version X hX
          ((queryFields_isSome_iff _).1 (by rw [hq]; rfl))) hform
    have n2 : queryFields ("gstreamer1.0".toList ++ X) = none := by
      cases hq : queryFields ("gstreamer1.0".toList ++ X) with
      | none => rfl
      | some f =>
        exact absurd (grammar_of_long_version X
          ((queryFields_isSome_iff _).1 (by rw [hq]; rfl))) hform
    rw [n1, n2]

/-- C19, as stated, fails for the remainder `.0(decoder-audio/x-wma)`:
`gstreamer1` followed by it is the accepted query
`gstreamer1.0(decoder-audio/x-wma)`, `gstreamer1.0` followed by it has `.0`
twice and is rejected, and the two matchers differ on `wmaRecord`. -/
theorem optional_dot_zero_counterexample :
    (GstMatcher.GstMatcher textAlgebra
        ["gstreamer1".toList ++ ".0(decoder-audio/x-wma)".toList]).m_matches = [wmaDecoder] ∧
      (GstMatcher.GstMatcher textAlgebra
        ["gstreamer1.0".toList ++ ".0(decoder-audio/x-wma)".toList]).m_matches = [] ∧
      (GstMatcher.GstMatcher textAlgebra
        ["gstreamer1".toList ++ ".0(decoder-audio/x-wma)".toList]).matches textAlgebra
          wmaRecord [] = true ∧
      (GstMatcher.GstMatcher textAlgebra
        ["gstreamer1.0".toList ++ ".0(decoder-audio/x-wma)".toList]).matches textAlgebra
          wmaRecord [] = false := by
  decide

/-- C19 (amended): for every remainder X that does not itself begin with `.0`,
the raw queries `gstreamer1` ++ X and `gstreamer1.0` ++ X are both rejected or
both accepted with the same version tag, kind, media descriptor, constraints,
arch hint and, with them, expression text and stored expression; the two
matchers return the same `matches` result for every record and arch. -/
theorem optional_dot_zero {Caps : Type} (alg : CapabilityAlgebra Caps) (X : Str)
    (hX : ¬ ".0".toList <+: X) :
    queryFields ("gstreamer1".toList ++ X) = queryFields ("gstreamer1.0".toList ++ X) ∧
      parseValue alg ("gstreamer1".toList ++ X) = parseValue alg ("gstreamer1.0".toList ++ X) ∧
      GstMatcher.GstMatcher alg ["gstreamer1".toList ++ X] =
        GstMatcher.GstMatcher alg ["gstreamer1.0".toList ++ X] ∧
      ∀ record arch : Str,
        (GstMatcher.GstMatcher alg ["gstreamer1".toList ++ X]).matches alg record arch =
          (GstMatcher.GstMatcher alg ["gstreamer1.0".toList ++ X]).matches alg record arch := by
  have hq := queryFields_optional_dot_zero X hX
  have hp : parseValue alg ("gstreamer1".toList ++ X) =
      parseValue alg ("gstreamer1.0".toList ++ X) := by
    unfold parseValue
    rw [hq]
  have hm : GstMatcher.GstMatcher alg ["gstreamer1".toList ++ X] =
      GstMatcher.GstMatcher alg ["gstreamer1.0".toList ++ X] := by
    unfold GstMatcher.GstMatcher
    simp only [List.foldl_cons, List.foldl_nil, constructorStep, hp]
  refine ⟨hq, hp, hm, ?_⟩
  intro record arch
  rw [hm]

/-- Witness for C19 (amended): the remainder `(decoder-audio/x-wma)`. -/
theorem optional_dot_zero_witness :
    (GstMatcher.GstMatcher textAlgebra
        ["gstreamer1".toList ++ "(decoder-audio/x-wma)".toList]).m_matches = [wmaDecoder] ∧
      GstMatcher.GstMatcher textAlgebra ["gstreamer1".toList ++ "(decoder-audio/x-wma)".toList] =
        GstMatcher.GstMatcher textAlgebra
          ["gstreamer1.0".toList ++ "(decoder-audio/x-wma)".toList] :=
  ⟨by decide,
    (optional_dot_zero textAlgebra "(decoder-audio/x-wma)".toList (by decide)).2.2.1⟩
